import Mathlib

/-!
Verification of the Foris/search engine (`problem.py`, `search.py`).

The development embeds the Python source shallowly:

* `PyVal` embeds `problem.py`'s `ValueWrapper`: a value is either a scalar
  number or a tuple of numbers; numbers are modelled by `ℚ`.  The comparison
  methods are translated branch by branch, including the Python 2 semantics
  of comparing a number with a tuple (in Python 2 a number compares less
  than every tuple, and such comparisons do not raise).
* The search engine of `search.py` is embedded as a fuel-indexed loop over an
  explicit state (frontier, seen set, trace of popped states).  Wall-clock
  reads (`time.time()`) are modelled by an ambient trace `times : Nat → ℤ`
  consumed one reading per loop iteration, and the optional `timeout` by a
  `WithTop ℤ` value (`⊤` models `float('inf')`); engine-level numbers
  (state values, heuristic estimates, clock readings) are modelled by `ℤ`,
  which carries the ordering and arithmetic the engine uses.
* State identity follows `problem.py`'s `State.__eq__`, which compares
  hashes, so seen sets are sets of hash values.
-/

set_option maxHeartbeats 1000000
set_option maxRecDepth 4000

namespace ForisSearch

/-! ## `problem.py`: `ValueWrapper`

`ValueWrapper.value` is either a number or a tuple of numbers. -/

inductive PyVal : Type where
  | scalar (q : ℚ)
  | vector (l : List ℚ)
deriving DecidableEq

/-- The tuple branch of `ValueWrapper.__lt__`: iterate over
`itertools.izip(self.value, other.value)` (a truncating zip); return `False`
as soon as `a > b`; otherwise accumulate `any_lt |= a < b` and return the
accumulator at the end. -/
def tupleLt : List (ℚ × ℚ) → Bool → Bool
  | [], acc => acc
  | (a, b) :: rest, acc => if b < a then false else tupleLt rest (acc || decide (a < b))

/-- `ValueWrapper.__lt__`.  Both operands are wrapped values here (the
unwrapped-operand branch of the Python code re-wraps, and the engine only
compares wrapped values).  When both payloads are tuples the product-order
loop runs; when both are numbers Python compares them numerically; for a
number against a tuple the final `else` branch performs a raw Python 2
mixed-type comparison, in which every number is smaller than every tuple. -/
def vlt : PyVal → PyVal → Bool
  | .vector a, .vector b => tupleLt (a.zip b) false
  | .scalar a, .scalar b => decide (a < b)
  | .scalar _, .vector _ => true
  | .vector _, .scalar _ => false

/-- `ValueWrapper.__gt__`: `return other < self`. -/
def vgt (a b : PyVal) : Bool := vlt b a

/-- `ValueWrapper.__le__`: `return not other > self`, i.e. `¬ (b > a)`,
which unfolds to `¬ (a < b)`.  (Note: the docstring of `__le__` says
"the right value is not lesser", which would be `¬ (b < a)`; the code as
written negates `>` instead of `<`.) -/
def vle (a b : PyVal) : Bool := ! vlt a b

/-- `ValueWrapper.__ge__`: `return other <= self`. -/
def vge (a b : PyVal) : Bool := vle b a

/-- `ValueWrapper.__eq__`: both operands wrapped, so it reduces to a raw
`==` on the payloads; in Python 2 a number never equals a tuple. -/
def veq : PyVal → PyVal → Bool
  | .scalar a, .scalar b => a == b
  | .vector a, .vector b => a == b
  | _, _ => false

/-- `ValueWrapper.__hash__`: `return hash(tuple(self.value))`.  For a tuple
payload, `tuple(...)` is the tuple itself and Python's `hash` is a pure
function of its components, which we model by the component list.  For a
scalar payload `tuple(3)` raises `TypeError`, modelled by `none`. -/
def vhash : PyVal → Option (List ℚ)
  | .scalar _ => none
  | .vector l => some l

/-! ## `problem.py`: `State.__eq__`

A `State` has a caller-defined `__hash__`; `__eq__` returns
`isinstance(other, self.__class__) and hash(self) == hash(other)`.
Concrete classes are modelled as distinct tags. -/

structure PyState where
  cls : Nat
  hsh : Int
deriving DecidableEq

/-- `State.__eq__` / `State.__ne__`: equal class and equal hash. -/
def pyStateEq (a b : PyState) : Bool := a.cls == b.cls && a.hsh == b.hsh

/-! ## `search.py`: engine state and problems

An engine state is a problem state together with its `_action_history`
(attached by `Search.branch`; the initial state has no history, and the
`try/except` in `branch` makes its children start a fresh one-element
history, which is the same as giving the initial state the empty history).

A problem bundles the `Problem` capability (`initial_state`, `is_solution`,
`actions`) with action application (`Action.__call__`), the state's value
(`State.value`, kept scalar here: the engine claims below only involve
scalar costs, for which `ValueWrapper` comparison and addition are plain
rational comparison and addition) and the state's identity hash
(`State.__hash__`; per `State.__eq__`, set membership for states of one
concrete class is membership of the hash, so seen sets are lists of
hashes). -/

structure EState (σ α : Type) where
  st : σ
  hist : List α
deriving DecidableEq

structure SProb (σ α : Type) where
  initialState : σ
  isSolution : σ → Bool
  actions : σ → List α
  applyAction : α → σ → σ
  value : σ → ℤ
  hash : σ → Int

/-- `Search.branch`: apply every action, extending the action history. -/
def branch (p : SProb σ α) (es : EState σ α) : List (EState σ α) :=
  (p.actions es.st).map fun a => ⟨p.applyAction a es.st, es.hist ++ [a]⟩

/-- A frontier policy: `create_queue`, `push`, `pop`, `len(queue)`.
`pop` returns `none` where the Python code would raise on a malformed
queue (never reached from a well-formed one). -/
structure Policy (σ α Q : Type) where
  create : Q
  push : Q → EState σ α → Q
  pop : Q → Option (EState σ α × Q)
  size : Q → Nat

/-- `Search.push_if_new`: push and mark seen if the state's identity is
not in the seen set. -/
def pushIfNew (p : SProb σ α) (pol : Policy σ α Q) (q : Q) (seen : List Int)
    (es : EState σ α) : Q × List Int :=
  if p.hash es.st ∈ seen then (q, seen) else (pol.push q es, p.hash es.st :: seen)

/-- The `for branched_state in branched_states: push_if_new` loop. -/
def pushList (p : SProb σ α) (pol : Policy σ α Q) :
    Q → List Int → List (EState σ α) → Q × List Int
  | q, seen, [] => (q, seen)
  | q, seen, es :: rest =>
    let pr := pushIfNew p pol q seen es
    pushList p pol pr.1 pr.2 rest

/-- Outcome of a solve call: fuel exhaustion (an artefact of the fuelled
embedding of the unbounded `while`), a stuck pop (an artefact standing for
the exceptions a malformed queue would raise, never reached from a
well-formed queue), the `TimeoutError` raise, or a Python return value
(`none` models `return None`). -/
inductive SOutcome (σ α : Type) where
  | fuelOut
  | stuck
  | timeoutErr
  | ret (res : Option (EState σ α))
deriving DecidableEq

structure SolveRes (σ α Q : Type) where
  out : SOutcome σ α
  trace : List (EState σ α)
  finalQ : Q
  finalSeen : List Int
deriving DecidableEq

/-- `Search.solve`'s `while` loop.  `times k` is the reading `time.time()`
returns at the k-th call; `timeout` is already converted (`None` and `0`
become `⊤`, since `if not timeout: timeout = float('inf')`).  `trace`
accumulates the popped states (most recent first; the result reverses it).
The timeout test is Python's strict `current - start > timeout`. -/
def solveAux (p : SProb σ α) (pol : Policy σ α Q) (timeout : WithTop ℤ)
    (times : Nat → ℤ) (start : ℤ) :
    Nat → Nat → Q → List Int → List (EState σ α) → SolveRes σ α Q
  | 0, _, q, seen, tr => ⟨.fuelOut, tr.reverse, q, seen⟩
  | fuel + 1, k, q, seen, tr =>
    if pol.size q = 0 then ⟨.ret none, tr.reverse, q, seen⟩
    else if timeout < ((times k - start : ℤ) : WithTop ℤ) then
      ⟨.timeoutErr, tr.reverse, q, seen⟩
    else
      match pol.pop q with
      | none => ⟨.stuck, tr.reverse, q, seen⟩
      | some (es, q2) =>
        if p.isSolution es.st then ⟨.ret (some es), (es :: tr).reverse, q2, seen⟩
        else
          let pr := pushList p pol q2 seen (branch p es)
          solveAux p pol timeout times start fuel (k + 1) pr.1 pr.2 (es :: tr)

/-- `Search.solve`: create queue and seen set, `push_if_new` the initial
state (the given one, or `problem.initial_state()`), run the loop. -/
def genericSolve (p : SProb σ α) (pol : Policy σ α Q) (initOv : Option σ)
    (timeout : WithTop ℤ) (times : Nat → ℤ) (start : ℤ) (fuel : Nat) :
    SolveRes σ α Q :=
  let s0 : EState σ α := ⟨initOv.getD p.initialState, []⟩
  let pr := pushIfNew p pol pol.create [] s0
  solveAux p pol timeout times start fuel 0 pr.1 pr.2 []

/-- `BreadthFirstSearch`: a `collections.deque` used FIFO (append right,
pop left). -/
def bfsPol (σ α : Type) : Policy σ α (List (EState σ α)) where
  create := []
  push q es := q ++ [es]
  pop q := match q with | [] => none | es :: rest => some (es, rest)
  size q := q.length

/-- `DepthFirstSearch`: a Python list used LIFO (append right, pop right);
modelled with the top of the stack at the head of the list. -/
def dfsPol (σ α : Type) : Policy σ α (List (EState σ α)) where
  create := []
  push q es := es :: q
  pop q := match q with | [] => none | es :: rest => some (es, rest)
  size q := q.length

/-- `GreedySearch`'s frontier: `push` keeps the new state only if the queue
is empty or its single retained state has a strictly greater value
(`queue[0].value > state.value` unwraps to a scalar comparison), clearing
the queue first; `pop` is `queue.pop()`, the rightmost element. -/
def greedyPol (p : SProb σ α) : Policy σ α (List (EState σ α)) where
  create := []
  push q es :=
    match q with
    | [] => [es]
    | h :: _ => if p.value es.st < p.value h.st then [es] else q
  pop q :=
    match q.getLast? with
    | none => none
    | some es => some (es, q.dropLast)
  size q := q.length

/-! ### `BestFirstSearch`'s frontier

The Python object keeps a heap `queue` of `(f, stack)` pairs plus the
instance attribute `value_states_dict` mapping each `f` to the same stack
object; the stacks are shared (aliased) between the two.  We model the pair
as one structure: `heap` is the list of keys currently in the heap, kept in
increasing order (all the Python code observes of `heapq` is that
`queue[0]` is minimal, keys being distinct), and `dict` is an association
list from key to stack.  Stacks are stored top-first (Python appends and
pops at the right end).  `dict` may contain keys that are not in `heap`:
exactly the situation of a second `solve` call on the same instance, since
`create_queue` makes a fresh heap but `value_states_dict` persists. -/

structure BFQueue (σ α : Type) where
  heap : List ℤ
  dict : List (ℤ × List (EState σ α))
deriving DecidableEq

def dictFind : List (ℤ × List (EState σ α)) → ℤ → Option (List (EState σ α))
  | [], _ => none
  | (g, s) :: rest, f => if g = f then some s else dictFind rest f

def dictSet : List (ℤ × List (EState σ α)) → ℤ → List (EState σ α) →
    List (ℤ × List (EState σ α))
  | [], _, _ => []
  | (g, s) :: rest, f, s2 => if g = f then (g, s2) :: rest else (g, s) :: dictSet rest f s2

def dictErase : List (ℤ × List (EState σ α)) → ℤ → List (ℤ × List (EState σ α))
  | [], _ => []
  | (g, s) :: rest, f => if g = f then rest else (g, s) :: dictErase rest f

/-- `BestFirstSearch.push` with the key `f` already computed: append to the
stack for `f` if the dict knows `f` (note: even if that stack is no longer
referenced by the heap), else create a stack, register it in the dict and
push `f` onto the heap. -/
def bfPushF (q : BFQueue σ α) (f : ℤ) (es : EState σ α) : BFQueue σ α :=
  match dictFind q.dict f with
  | some stack => ⟨q.heap, dictSet q.dict f (es :: stack)⟩
  | none => ⟨q.heap.orderedInsert (· ≤ ·) f, (f, [es]) :: q.dict⟩

/-- `IterativeDepthFirstSearch.pop` (also the body of
`BestFirstSearch.pop`, which drops the key): read `queue[0]`, pop the top
of its stack, and when the stack empties remove the key from the heap and
the dict. -/
def bfPop : BFQueue σ α → Option ((ℤ × EState σ α) × BFQueue σ α)
  | ⟨[], _⟩ => none
  | ⟨f :: heapRest, dict⟩ =>
    match dictFind dict f with
    | none => none
    | some stack =>
      match stack with
      | [] => none
      | es :: stackRest =>
        if stackRest.isEmpty then some ((f, es), ⟨heapRest, dictErase dict f⟩)
        else some ((f, es), ⟨f :: heapRest, dictSet dict f stackRest⟩)

/-- `BestFirstSearch` as a policy.  `push` computes `f = g + h` from the
state's value and the heuristic (`value=None` case).  `dict0` is the
content of `value_states_dict` when `solve` is entered: `[]` for a freshly
constructed engine, and whatever the previous call left for a reused one. -/
def bestPol (p : SProb σ α) (h : σ → ℤ)
    (dict0 : List (ℤ × List (EState σ α))) : Policy σ α (BFQueue σ α) where
  create := ⟨[], dict0⟩
  push q es := bfPushF q (p.value es.st + h es.st) es
  pop q := (bfPop q).map fun pr => (pr.1.2, pr.2)
  size q := q.heap.length

/-- `BreadthFirstSearch().solve(...)` — inherits `Search.solve`. -/
def bfsSolve (p : SProb σ α) (initOv : Option σ) (timeout : WithTop ℤ)
    (times : Nat → ℤ) (start : ℤ) (fuel : Nat) : SolveRes σ α (List (EState σ α)) :=
  genericSolve p (bfsPol σ α) initOv timeout times start fuel

/-- `DepthFirstSearch().solve(...)` — inherits `Search.solve`. -/
def dfsSolve (p : SProb σ α) (initOv : Option σ) (timeout : WithTop ℤ)
    (times : Nat → ℤ) (start : ℤ) (fuel : Nat) : SolveRes σ α (List (EState σ α)) :=
  genericSolve p (dfsPol σ α) initOv timeout times start fuel

/-- `solve(...)` on a `BestFirstSearch` instance whose `value_states_dict`
currently holds `dict0` — inherits `Search.solve`. -/
def bestSolve (p : SProb σ α) (h : σ → ℤ) (dict0 : List (ℤ × List (EState σ α)))
    (initOv : Option σ) (timeout : WithTop ℤ) (times : Nat → ℤ) (start : ℤ)
    (fuel : Nat) : SolveRes σ α (BFQueue σ α) :=
  genericSolve p (bestPol p h dict0) initOv timeout times start fuel

/-- `GreedySearch.solve`'s own `while` loop (it overrides `Search.solve`):
tracks `best_solution`/`best_value`; on timeout it `break`s (returning the
best) instead of raising; a popped state with value above the best also
`break`s, otherwise it becomes the new best and is branched. -/
def greedyAux (p : SProb σ α) (timeout : WithTop ℤ) (times : Nat → ℤ) (start : ℤ) :
    Nat → Nat → List (EState σ α) → List Int → List (EState σ α) →
      EState σ α → ℤ → SolveRes σ α (List (EState σ α))
  | 0, _, q, seen, tr, _, _ => ⟨.fuelOut, tr.reverse, q, seen⟩
  | fuel + 1, k, q, seen, tr, best, bestv =>
    if q.length = 0 then ⟨.ret (some best), tr.reverse, q, seen⟩
    else if timeout < ((times k - start : ℤ) : WithTop ℤ) then
      ⟨.ret (some best), tr.reverse, q, seen⟩
    else
      match (greedyPol p).pop q with
      | none => ⟨.stuck, tr.reverse, q, seen⟩
      | some (cur, q2) =>
        if bestv < p.value cur.st then ⟨.ret (some best), (cur :: tr).reverse, q2, seen⟩
        else
          let pr := pushList p (greedyPol p) q2 seen (branch p cur)
          greedyAux p timeout times start fuel (k + 1) pr.1 pr.2 (cur :: tr)
            cur (p.value cur.st)

/-- `GreedySearch.solve`. -/
def greedySolve (p : SProb σ α) (initOv : Option σ) (timeout : WithTop ℤ)
    (times : Nat → ℤ) (start : ℤ) (fuel : Nat) : SolveRes σ α (List (EState σ α)) :=
  let s0 : EState σ α := ⟨initOv.getD p.initialState, []⟩
  let pr := pushIfNew p (greedyPol p) (greedyPol p).create [] s0
  greedyAux p timeout times start fuel 0 pr.1 pr.2 [] s0 (p.value s0.st)

/-! ### `IterativeDepthFirstSearch` -/

/-- Result of one `run`: the temporary solution (or `None`), plus the
mutated queue and seen set, and the next clock index. -/
structure RunRes (σ α : Type) where
  sol : Option (EState σ α)
  q : BFQueue σ α
  seen : List Int
  k : Nat
deriving DecidableEq

/-- The within-step deduplication of `run`: scan the branched states,
skipping any whose identity repeats an already accepted sibling
(`if not new_seen or self.is_new(state, new_seen, problem)`). -/
def runDedup (p : SProb σ α) : List (EState σ α) → List Int → List (EState σ α)
  | [], _ => []
  | s :: rest, nseen =>
    if nseen.isEmpty ∨ p.hash s.st ∉ nseen then s :: runDedup p rest (p.hash s.st :: nseen)
    else runDedup p rest nseen

/-- The `for value, state in values_with_states[1:]` loop of `run`: push
each remaining state with its `f = g + h` value and add it to the outer
seen set. -/
def pushRun (p : SProb σ α) (h : σ → ℤ) :
    BFQueue σ α → List Int → List (EState σ α) → BFQueue σ α × List Int
  | q, seen, [] => (q, seen)
  | q, seen, s :: rest =>
    pushRun p h (bfPushF q (p.value s.st + h s.st) s) (p.hash s.st :: seen) rest

/-- The `while True` loop of `IterativeDepthFirstSearch.run`.  One clock
reading per iteration; on a time break the run returns `None` (it has not
reached a solution).  `sort_states(problem, branched_states)` is a no-op
(`pass`) in the source and so does not appear.  The code then reverses the
deduplicated list, descends into its head (the *last* accepted successor)
and pushes the rest with their `f` values, marking them seen. -/
def runAux (p : SProb σ α) (h : σ → ℤ) (timeout : WithTop ℤ) (times : Nat → ℤ)
    (start : ℤ) :
    Nat → Nat → EState σ α → BFQueue σ α → List Int → Option (RunRes σ α)
  | 0, _, _, _, _ => none
  | fuel + 1, k, cur, q, seen =>
    if timeout < ((times k - start : ℤ) : WithTop ℤ) then some ⟨none, q, seen, k + 1⟩
    else if p.isSolution cur.st then some ⟨some cur, q, seen, k + 1⟩
    else
      let bs := (branch p cur).filter fun x => decide (p.hash x.st ∉ seen)
      let ns := runDedup p bs []
      match ns.reverse with
      | [] => some ⟨none, q, seen, k + 1⟩
      | c :: rest =>
        let pr := pushRun p h q seen rest
        runAux p h timeout times start fuel (k + 1) c pr.1 pr.2

/-- `if not timeout: timeout = float('inf')` — in Python both `None` and
`0.0` are falsy, so a zero remaining time is silently turned into no limit. -/
def rtEff (rt : WithTop ℤ) : WithTop ℤ :=
  if rt = 0 then ⊤ else rt

/-- `IterativeDepthFirstSearch.run`: read `start = time.time()` (consuming
one clock reading), normalise the timeout, and loop. -/
def idfsRun (p : SProb σ α) (h : σ → ℤ) (rt : WithTop ℤ) (times : Nat → ℤ)
    (fuel k : Nat) (cur : EState σ α) (q : BFQueue σ α) (seen : List Int) :
    Option (RunRes σ α) :=
  runAux p h (rtEff rt) times (times k) fuel (k + 1) cur q seen

/-- `timeout - ellapsed_time` with `timeout` possibly infinite. -/
def timeSub (t : WithTop ℤ) (e : ℤ) : WithTop ℤ := t.map fun T => T - e

/-- The `value >= best_value` pruning test of `IterativeDepthFirstSearch.solve`.
`value` is a raw number (the `f` key, since `ValueWrapper.__add__` returns
an unwrapped value).  Before a first solution, `best_value` is
`float('inf')` and a finite number is never `>=` infinity.  After a first
solution, `best_value` is a `ValueWrapper`; Python 2 resolves
`number >= instance` through the reflected `ValueWrapper.__le__`, whose
`isinstance` guard fails on the raw number, returning `False`. -/
def idfsPrune (v : ℤ) (best : Option (EState σ α × ℤ)) : Bool :=
  match best with
  | none => decide ((⊤ : WithTop ℤ) ≤ (v : WithTop ℤ))
  | some _ => false

/-- The `new_value < best_value` test.  Before a first solution
`best_value` is `float('inf')` and `ValueWrapper.__lt__` against a
non-`ValueWrapper` returns `False` (the update still happens through
`or not best_solution`); afterwards it is a scalar comparison. -/
def idfsBetter (newv : ℤ) (best : Option (EState σ α × ℤ)) : Bool :=
  match best with
  | none => false
  | some (_, bv) => decide (newv < bv)

structure IdfsRes (σ α : Type) where
  out : SOutcome σ α
  q : BFQueue σ α
  seen : List Int
  k : Nat
deriving DecidableEq

/-- The outer `while` loop of `IterativeDepthFirstSearch.solve`: pop the
best `(f, state)`; prune against the incumbent; then check the clock —
return the incumbent if one exists and the soft timeout passed, raise
`TimeoutError` if the hard timeout passed; otherwise `run` from the popped
state with the remaining time and update the incumbent if the run's
solution is strictly better (or there is none yet). -/
def idfsAux (p : SProb σ α) (h : σ → ℤ) (timeout soft : WithTop ℤ)
    (times : Nat → ℤ) (start : ℤ) (runFuel : Nat) :
    Nat → Nat → BFQueue σ α → List Int → Option (EState σ α × ℤ) → IdfsRes σ α
  | 0, k, q, seen, _ => ⟨.fuelOut, q, seen, k⟩
  | fuel + 1, k, q, seen, best =>
    if q.heap.length = 0 then ⟨.ret (best.map Prod.fst), q, seen, k⟩
    else
      match bfPop q with
      | none => ⟨.stuck, q, seen, k⟩
      | some ((v, es), q2) =>
        if idfsPrune v best then ⟨.ret (best.map Prod.fst), q2, seen, k⟩
        else
          let el := times k - start
          if best.isSome && decide (soft < (el : WithTop ℤ)) then
            ⟨.ret (best.map Prod.fst), q2, seen, k + 1⟩
          else if timeout < (el : WithTop ℤ) then ⟨.timeoutErr, q2, seen, k + 1⟩
          else
            match idfsRun p h (timeSub timeout el) times runFuel (k + 1) es q2 seen with
            | none => ⟨.fuelOut, q2, seen, k + 1⟩
            | some rr =>
              let best2 :=
                match rr.sol with
                | none => best
                | some s =>
                  if idfsBetter (p.value s.st) best || best.isNone then
                    some (s, p.value s.st)
                  else best
              idfsAux p h timeout soft times start runFuel fuel rr.k rr.q rr.seen best2

/-- `IterativeDepthFirstSearch.solve` on a fresh instance: normalise the
timeouts (`None`/`0` become infinity; the soft timeout defaults to
`min(timeout, inf) = timeout`), read the start time, push the initial
state and run the outer loop with no incumbent. -/
def idfsSolve (p : SProb σ α) (h : σ → ℤ) (initOv : Option σ)
    (timeoutOpt softOpt : Option ℤ) (times : Nat → ℤ) (runFuel fuel : Nat) :
    IdfsRes σ α :=
  let timeout : WithTop ℤ :=
    match timeoutOpt with
    | none => ⊤
    | some t => if t = 0 then ⊤ else (t : WithTop ℤ)
  let soft : WithTop ℤ :=
    match softOpt with
    | none => timeout
    | some s => if s = 0 then timeout else (s : WithTop ℤ)
  let start := times 0
  let s0 : EState σ α := ⟨initOv.getD p.initialState, []⟩
  let pr := pushIfNew p (bestPol p h []) ⟨[], []⟩ [] s0
  idfsAux p h timeout soft times start runFuel fuel 1 pr.1 pr.2 none

/-! ## Frontier contents, invariants and contracts -/

/-- Identity hashes of a list of engine states, as a multiset. -/
def hashes (p : SProb σ α) (l : List (EState σ α)) : Multiset Int :=
  ↑(l.map fun es => p.hash es.st)

/-- Laws a frontier policy satisfies, relative to a well-formedness
predicate `W` and a contents function `γ` (the multiset of states the loop
can still pop): pushing adds at most the pushed state to the contents
(`GreedySearch.push` may drop states, and a `BestFirstSearch` push into an
orphaned stack adds nothing), popping removes the popped state, and a
non-empty frontier always pops. -/
structure PolicyOK [DecidableEq σ] [DecidableEq α] (p : SProb σ α)
    (pol : Policy σ α Q) (W : Q → Prop)
    (γ : Q → Multiset (EState σ α)) : Prop where
  createW : W pol.create
  pushW : ∀ q es, W q → W (pol.push q es)
  popW : ∀ q es q2, W q → pol.pop q = some (es, q2) → W q2
  popSome : ∀ q, W q → pol.size q ≠ 0 → (pol.pop q).isSome
  createC : γ pol.create = 0
  pushC : ∀ q es, W q → γ (pol.push q es) ≤ γ q + {es}
  popC : ∀ q es q2, W q → pol.pop q = some (es, q2) → es ∈ γ q ∧ γ q2 ≤ (γ q).erase es

/-- Loop invariant of `solve`: the popped states and the frontier contents
have pairwise distinct identity hashes, all recorded in the seen set. -/
def SeenInv (p : SProb σ α) (γ : Q → Multiset (EState σ α)) (q : Q)
    (seen : List Int) (tr : List (EState σ α)) : Prop :=
  (hashes p tr + (γ q).map fun es => p.hash es.st).Nodup ∧
    ∀ x ∈ hashes p tr + (γ q).map fun es => p.hash es.st, x ∈ seen

/-- The stack the dict associates to `f` (empty if absent). -/
def dictStack (d : List (ℤ × List (EState σ α))) (f : ℤ) : List (EState σ α) :=
  (dictFind d f).getD []

/-- Contents of a `BestFirstSearch` frontier: the stacks reachable from
the heap, joined.  States sitting in orphaned dict stacks are *not*
contents: no pop can reach them. -/
def bfContents (q : BFQueue σ α) : Multiset (EState σ α) :=
  ↑((q.heap.map (dictStack q.dict)).flatten)

/-- Well-formedness of a `BestFirstSearch` frontier: heap keys sorted and
distinct, each mapping to a non-empty stack.  Keys known to the dict but
absent from the heap — leftovers of a previous `solve` call on the same
instance — are permitted. -/
def BFWF (q : BFQueue σ α) : Prop :=
  q.heap.Sorted (· ≤ ·) ∧ q.heap.Nodup ∧
    ∀ f ∈ q.heap, ∃ stack, dictFind q.dict f = some stack ∧ stack ≠ []

/-- No orphaned dict entries: every key the dict knows is in the heap.
Holds throughout the first `solve` call of a freshly constructed engine. -/
def NoOrphans (q : BFQueue σ α) : Prop :=
  ∀ f s, dictFind q.dict f = some s → f ∈ q.heap

/-- The return contract of `Search.solve` (claim C4): no stuck pop,
`None` exactly when the frontier emptied, `TimeoutError` only with a
non-empty frontier, and any returned state is a popped state satisfying
`is_solution`. -/
structure SolveContract (p : SProb σ α) (pol : Policy σ α Q) (r : SolveRes σ α Q) : Prop where
  notStuck : r.out ≠ .stuck
  retNoneEmpty : r.out = .ret none → pol.size r.finalQ = 0
  timeoutNonempty : r.out = .timeoutErr → pol.size r.finalQ ≠ 0
  outCases : r.out = .fuelOut ∨ r.out = .timeoutErr ∨ r.out = .ret none ∨
    ∃ es, r.out = .ret (some es) ∧ p.isSolution es.st = true ∧ es ∈ r.trace

/-! ## Reachability in the state graph -/

/-- Successor states of `s`: one application of each legal action.  This is
exactly what `Search.branch` produces, forgetting histories. -/
def succs (p : SProb σ α) (s : σ) : List σ :=
  (p.actions s).map fun a => p.applyAction a s

/-- `ReachIn p k s t`: `t` is reachable from `s` in exactly `k` branching
steps. -/
def ReachIn (p : SProb σ α) : Nat → σ → σ → Prop
  | 0, s, t => t = s
  | k + 1, s, t => ∃ u ∈ succs p s, ReachIn p k u t

def reachInDec (p : SProb σ α) [DecidableEq σ] : ∀ k s t, Decidable (ReachIn p k s t)
  | 0, _, _ => by unfold ReachIn; infer_instance
  | k + 1, s, t =>
    haveI : ∀ u, Decidable (ReachIn p k u t) := fun u => reachInDec p k u t
    by unfold ReachIn; infer_instance

instance (p : SProb σ α) [DecidableEq σ] (k : Nat) (s t : σ) :
    Decidable (ReachIn p k s t) := reachInDec p k s t

/-- The action list is a legal path from `s` to `t`. -/
def IsPath (p : SProb σ α) : σ → List α → σ → Prop
  | s, [], t => t = s
  | s, a :: rest, t => a ∈ p.actions s ∧ IsPath p (p.applyAction a s) rest t

/-! ## Concrete problems used for counterexamples and witnesses -/

/-- A problem with no actions whose initial state is not a goal. -/
def noActProb : SProb Int Int where
  initialState := 0
  isSolution _ := false
  actions _ := []
  applyAction a _ := a
  value _ := 0
  hash s := s

/-- Node 0 branches to nodes 1 and 2 (both of value 1, hence sharing the
`f` key under the zero heuristic); node 2 is the goal. -/
def twoPathProb : SProb Int Int where
  initialState := 0
  isSolution s := s == 2
  actions s := if s = 0 then [1, 2] else []
  applyAction a _ := a
  value s := if s = 0 then 0 else 1
  hash s := s

/-- Node 0 branches to node 1 (value 0) and node 2 (value 5, the goal). -/
def runProb : SProb Int Int where
  initialState := 0
  isSolution s := s == 2
  actions s := if s = 0 then [1, 2] else []
  applyAction a _ := a
  value s := if s = 1 then 0 else if s = 2 then 5 else 0
  hash s := s

/-- The spec's concrete scenario: three nodes with adjacency
`[[0,1,0],[0,0,1],[0,0,0]]`, start `0`, goal `2`, unit-cost traversals. -/
def g3Prob : SProb (Fin 3) (Fin 3) where
  initialState := 0
  isSolution s := s == 2
  actions s := if s = 0 then [1] else if s = 1 then [2] else []
  applyAction a _ := a
  value _ := 0
  hash s := (s : Int)

/-- The invariant of the breadth-first `solve` loop (claim C6): every
recorded state carries a legal action path of minimal length (its depth
equals its true distance from the initial state); queue depths are
nondecreasing and within one of the front depth; the seen set is exactly
the identities of the popped and queued states and contains the initial
state's; popped states are non-goals whose successors have all been
discovered; and every state strictly closer than the queue front — or
every reachable state, once the queue is empty — has been discovered. -/
structure BfsInv (p : SProb σ α) (q : List (EState σ α)) (seen : List Int)
    (tr : List (EState σ α)) : Prop where
  path : ∀ es ∈ tr ++ q, IsPath p p.initialState es.hist es.st
  depthMin : ∀ es ∈ tr ++ q, ∀ j, ReachIn p j p.initialState es.st →
    es.hist.length ≤ j
  sorted : List.Sorted (· ≤ ·) (q.map fun es => es.hist.length)
  bounded : ∀ es ∈ q, ∀ hd ∈ q.head?, es.hist.length ≤ hd.hist.length + 1
  seenIff : ∀ h2, h2 ∈ seen ↔ ∃ es ∈ tr ++ q, p.hash es.st = h2
  initSeen : p.hash p.initialState ∈ seen
  trNoGoal : ∀ es ∈ tr, p.isSolution es.st = false
  trSuccSeen : ∀ es ∈ tr, ∀ t ∈ succs p es.st, p.hash t ∈ seen
  frontDisc : ∀ hd ∈ q.head?, ∀ s j, ReachIn p j p.initialState s →
    j < hd.hist.length → p.hash s ∈ seen
  emptyDisc : q = [] → ∀ s j, ReachIn p j p.initialState s → p.hash s ∈ seen

/-! Characterisation of the product-order loop. -/

lemma tupleLt_iff (l : List (ℚ × ℚ)) (acc : Bool) :
    tupleLt l acc = true ↔
      (∀ pr ∈ l, pr.1 ≤ pr.2) ∧ (acc = true ∨ ∃ pr ∈ l, pr.1 < pr.2) := by
  induction l generalizing acc with
  | nil => simp [tupleLt]
  | cons hd tl ih =>
    obtain ⟨a, b⟩ := hd
    by_cases hba : b < a
    · simp only [tupleLt, if_pos hba]
      constructor
      · intro h; exact absurd h (by simp)
      · rintro ⟨hall, -⟩
        exact absurd (hall (a, b) (List.mem_cons_self _ _)) (not_le.mpr hba)
    · simp only [tupleLt, if_neg hba, ih]
      have hab : a ≤ b := not_lt.mp hba
      constructor
      · rintro ⟨hall, hex⟩
        refine ⟨?_, ?_⟩
        · intro pr hpr
          rcases List.mem_cons.mp hpr with h | h
          · subst h; exact hab
          · exact hall pr h
        · rcases hex with hacc | ⟨pr, hpr, hlt⟩
          · rcases Bool.or_eq_true_iff.mp hacc with h | h
            · exact Or.inl h
            · exact Or.inr ⟨(a, b), List.mem_cons_self _ _, of_decide_eq_true h⟩
          · exact Or.inr ⟨pr, List.mem_cons_of_mem _ hpr, hlt⟩
      · rintro ⟨hall, hex⟩
        refine ⟨fun pr hpr => hall pr (List.mem_cons_of_mem _ hpr), ?_⟩
        rcases hex with hacc | ⟨pr, hpr, hlt⟩
        · exact Or.inl (by simp [hacc])
        · rcases List.mem_cons.mp hpr with h | h
          · subst h
            exact Or.inl (by simp [hlt])
          · exact Or.inr ⟨pr, h, hlt⟩

/-- Membership in a zip of equal-length lists, in index form (∀ version). -/
lemma zip_forall_iff_get (r : ℚ → ℚ → Prop) :
    ∀ (a b : List ℚ), a.length = b.length →
      ((∀ pr ∈ a.zip b, r pr.1 pr.2) ↔
        ∀ i, ∀ hia : i < a.length, ∀ hib : i < b.length,
          r (a.get ⟨i, hia⟩) (b.get ⟨i, hib⟩)) := by
  intro a
  induction a with
  | nil => intro b h; simp
  | cons x xs ih =>
    intro b h
    cases b with
    | nil => exact absurd h (by simp)
    | cons y ys =>
      have h' : xs.length = ys.length := by simpa using h
      rw [List.zip_cons_cons, List.forall_mem_cons, ih ys h']
      constructor
      · rintro ⟨hxy, htl⟩ i hia hib
        cases i with
        | zero => exact hxy
        | succ j => exact htl j (by simpa using hia) (by simpa using hib)
      · intro hget
        refine ⟨hget 0 (by simp) (by simp), ?_⟩
        intro j hja hjb
        exact hget (j + 1) (by simpa using hja) (by simpa using hjb)

/-- Membership in a zip of equal-length lists, in index form (∃ version). -/
lemma zip_exists_iff_get (r : ℚ → ℚ → Prop) :
    ∀ (a b : List ℚ), a.length = b.length →
      ((∃ pr ∈ a.zip b, r pr.1 pr.2) ↔
        ∃ i, ∃ hia : i < a.length, ∃ hib : i < b.length,
          r (a.get ⟨i, hia⟩) (b.get ⟨i, hib⟩)) := by
  intro a
  induction a with
  | nil => intro b h; simp
  | cons x xs ih =>
    intro b h
    cases b with
    | nil => exact absurd h (by simp)
    | cons y ys =>
      have h' : xs.length = ys.length := by simpa using h
      rw [List.zip_cons_cons]
      constructor
      · rintro ⟨pr, hpr, hr⟩
        rcases List.mem_cons.mp hpr with hh | hh
        · subst hh; exact ⟨0, by simp, by simp, hr⟩
        · obtain ⟨j, hja, hjb, hj⟩ := (ih ys h').mp ⟨pr, hh, hr⟩
          exact ⟨j + 1, by simpa using hja, by simpa using hjb, hj⟩
      · rintro ⟨i, hia, hib, hi⟩
        cases i with
        | zero => exact ⟨(x, y), List.mem_cons_self _ _, hi⟩
        | succ j =>
          obtain ⟨pr, hpr, hr⟩ :=
            (ih ys h').mpr ⟨j, by simpa using hia, by simpa using hib, hi⟩
          exact ⟨pr, List.mem_cons_of_mem _ hpr, hr⟩

/-- The vector-vector case of `__lt__` is the product order, in index form. -/
lemma vlt_vector_iff (a b : List ℚ) (h : a.length = b.length) :
    vlt (.vector a) (.vector b) = true ↔
      ((∀ i, ∀ hia : i < a.length, ∀ hib : i < b.length,
          a.get ⟨i, hia⟩ ≤ b.get ⟨i, hib⟩) ∧
        ∃ i, ∃ hia : i < a.length, ∃ hib : i < b.length,
          a.get ⟨i, hia⟩ < b.get ⟨i, hib⟩) := by
  rw [show vlt (.vector a) (.vector b) = tupleLt (a.zip b) false from rfl, tupleLt_iff,
    zip_forall_iff_get (· ≤ ·) a b h, zip_exists_iff_get (· < ·) a b h]
  simp

/-- Strict comparison of vectors is asymmetric. -/
lemma vlt_vector_asymm (a b : List ℚ) :
    vlt (.vector a) (.vector b) = true → vlt (.vector b) (.vector a) = false := by
  intro hab
  rw [show vlt (.vector a) (.vector b) = tupleLt (a.zip b) false from rfl, tupleLt_iff] at hab
  by_contra hba
  have hba' : vlt (.vector b) (.vector a) = true := by
    cases hv : vlt (.vector b) (.vector a) with
    | true => rfl
    | false => exact absurd hv hba
  rw [show vlt (.vector b) (.vector a) = tupleLt (b.zip a) false from rfl, tupleLt_iff] at hba'
  obtain ⟨-, h | ⟨pr, hpr, hlt⟩⟩ := hab
  · exact absurd h (by simp)
  · have hswap : pr.swap ∈ b.zip a := by
      rw [← List.zip_swap]
      exact List.mem_map_of_mem Prod.swap hpr
    have := hba'.1 pr.swap hswap
    simp only [Prod.fst_swap, Prod.snd_swap] at this
    exact absurd hlt (not_lt.mpr this)

/-! ## Claim C3: the product order on vector values

Parts of the claim that hold: the iff-characterisation of `a < b` and
asymmetry.  The part that fails: on incomparable vectors not *every* order
comparison is false, because `__le__` is the negation of `__gt__`
(`a <= b` is `not (b > a)`, i.e. `¬ (a < b)`), so `a <= b` and `a >= b` are
both true whenever `a` and `b` are incomparable. -/

/-- Claim C3, counterexample: there is no pair of equal-arity vectors
(arity ≥ 2) that is incomparable and on which every order comparison
(`lt`, `gt`, `le`, `ge`, in both directions) is false: whenever `a < b` is
false, `a <= b` is already true, since `__le__` negates `__gt__`. -/
theorem claim_C3_counterexample :
    ¬ ∃ a b : List ℚ, a.length = b.length ∧ 2 ≤ a.length ∧
      vlt (.vector a) (.vector b) = false ∧ vlt (.vector b) (.vector a) = false ∧
      veq (.vector a) (.vector b) = false ∧
      vgt (.vector a) (.vector b) = false ∧ vgt (.vector b) (.vector a) = false ∧
      vle (.vector a) (.vector b) = false ∧ vle (.vector b) (.vector a) = false ∧
      vge (.vector a) (.vector b) = false ∧ vge (.vector b) (.vector a) = false := by
  rintro ⟨a, b, -, -, hlt, -, -, -, -, hle, -⟩
  rw [vle, hlt] at hle
  simp at hle

/-- Claim C3, amended: for equal-arity vectors, `a < b` holds iff every
component of `a` is `≤` the corresponding component of `b` and at least one
is strictly smaller; `a < b` and `b < a` never both hold; and for every
arity ≥ 2 there are incomparable vectors `a ≠ b` on which both strict
comparisons (`lt` and `gt`, in both directions) are false — but on which
`a <= b` and `a >= b` are both true, because `__le__` is implemented as the
negation of `__gt__`. -/
theorem claim_C3_amended :
    (∀ a b : List ℚ, ∀ h : a.length = b.length,
      (vlt (.vector a) (.vector b) = true ↔
        ((∀ i, ∀ hia : i < a.length, ∀ hib : i < b.length,
            a.get ⟨i, hia⟩ ≤ b.get ⟨i, hib⟩) ∧
          ∃ i, ∃ hia : i < a.length, ∃ hib : i < b.length,
            a.get ⟨i, hia⟩ < b.get ⟨i, hib⟩))) ∧
    (∀ a b : List ℚ, a.length = b.length →
      vlt (.vector a) (.vector b) = true → vlt (.vector b) (.vector a) = false) ∧
    (∀ n, 2 ≤ n → ∃ a b : List ℚ, a.length = n ∧ b.length = n ∧
      vlt (.vector a) (.vector b) = false ∧ vlt (.vector b) (.vector a) = false ∧
      veq (.vector a) (.vector b) = false ∧
      vgt (.vector a) (.vector b) = false ∧ vgt (.vector b) (.vector a) = false ∧
      vle (.vector a) (.vector b) = true ∧ vle (.vector b) (.vector a) = true ∧
      vge (.vector a) (.vector b) = true ∧ vge (.vector b) (.vector a) = true) := by
  refine ⟨fun a b h => vlt_vector_iff a b h, fun a b _ => vlt_vector_asymm a b, ?_⟩
  intro n hn
  set a : List ℚ := 0 :: 1 :: List.replicate (n - 2) 0 with ha
  set b : List ℚ := 1 :: 0 :: List.replicate (n - 2) 0 with hb
  have hAB : vlt (.vector a) (.vector b) = false := by
    rw [ha, hb,
      show vlt (.vector (0 :: 1 :: List.replicate (n - 2) (0:ℚ)))
        (.vector (1 :: 0 :: List.replicate (n - 2) 0)) =
        tupleLt (((0:ℚ), (1:ℚ)) :: ((1:ℚ), (0:ℚ)) ::
          (List.replicate (n - 2) (0:ℚ)).zip (List.replicate (n - 2) (0:ℚ))) false from rfl]
    norm_num [tupleLt]
  have hBA : vlt (.vector b) (.vector a) = false := by
    rw [ha, hb,
      show vlt (.vector (1 :: 0 :: List.replicate (n - 2) (0:ℚ)))
        (.vector (0 :: 1 :: List.replicate (n - 2) 0)) =
        tupleLt (((1:ℚ), (0:ℚ)) :: ((0:ℚ), (1:ℚ)) ::
          (List.replicate (n - 2) (0:ℚ)).zip (List.replicate (n - 2) (0:ℚ))) false from rfl]
    norm_num [tupleLt]
  have hEq : veq (.vector a) (.vector b) = false := by
    rw [ha, hb,
      show veq (.vector (0 :: 1 :: List.replicate (n - 2) (0:ℚ)))
        (.vector (1 :: 0 :: List.replicate (n - 2) 0)) =
        ((0 :: 1 :: List.replicate (n - 2) (0:ℚ)) ==
          (1 :: 0 :: List.replicate (n - 2) (0:ℚ))) from rfl]
    rw [beq_eq_false_iff_ne]
    intro hcontra
    have : (0:ℚ) = 1 := by injection hcontra
    norm_num at this
  refine ⟨a, b, by rw [ha]; simp; omega, by rw [hb]; simp; omega,
    hAB, hBA, hEq, ?_, ?_, ?_, ?_, ?_, ?_⟩
  · rw [vgt, hBA]
  · rw [vgt, hAB]
  · rw [vle, hAB]; rfl
  · rw [vle, hBA]; rfl
  · rw [vge, vle, hBA]; rfl
  · rw [vge, vle, hAB]; rfl

/-- Witness for the amended C3: the asymmetry part applied to the concrete
vectors `(0, 1)` and `(0, 2)`, and the incomparability part at arity 2. -/
theorem claim_C3_amended_witness :
    vlt (.vector [(0:ℚ), 1]) (.vector [0, 2]) = true ∧
      vlt (.vector [(0:ℚ), 2]) (.vector [0, 1]) = false := by
  exact ⟨by decide, claim_C3_amended.2.1 [0, 1] [0, 2] rfl (by decide)⟩

/-! ## Claim C8: cross-shape comparisons and hashing

The claim fails on the code in two ways.  First, a scalar-vs-vector
comparison is *not* always false: the final `else` branch of `__lt__`
compares the raw number against the raw tuple, and in Python 2 every number
is smaller than every tuple, so `scalar < vector` is true (and the derived
`gt`/`le`/`ge` are true in one direction each).  Second, `__hash__` computes
`hash(tuple(self.value))`, and `tuple(...)` of a number raises `TypeError`,
so `hash` is undefined for scalar values. -/

/-- Claim C8, counterexample: `ValueWrapper(3) < ValueWrapper((1, 2))`
evaluates to `True` in the code (Python 2 number-vs-tuple ordering), not
`False` as the claim requires, and `ValueWrapper(3).__hash__` raises
(`tuple(3)` is a `TypeError`), modelled by `none`. -/
theorem claim_C8_counterexample :
    vlt (.scalar 3) (.vector [1, 2]) = true ∧ vhash (.scalar 3) = none :=
  ⟨rfl, rfl⟩

/-- Claim C8, amended: for two values of differing shapes equality is false
and no comparison raises, but the order comparisons are not all false:
`scalar < vector`, `vector > scalar`, `vector <= scalar`, `scalar >= vector`
are all true (Python 2 mixed-type ordering, plus `__le__`/`__ge__` being
negations of the strict comparisons).  `hash` is defined for vector values
and equal values have equal hashes, but `hash` of a scalar value raises
`TypeError`. -/
theorem claim_C8_amended :
    (∀ (q : ℚ) (l : List ℚ),
      veq (.scalar q) (.vector l) = false ∧ veq (.vector l) (.scalar q) = false ∧
      vlt (.scalar q) (.vector l) = true ∧ vlt (.vector l) (.scalar q) = false ∧
      vgt (.scalar q) (.vector l) = false ∧ vgt (.vector l) (.scalar q) = true ∧
      vle (.scalar q) (.vector l) = false ∧ vle (.vector l) (.scalar q) = true ∧
      vge (.scalar q) (.vector l) = true ∧ vge (.vector l) (.scalar q) = false ∧
      vhash (.scalar q) = none) ∧
    (∀ l : List ℚ, vhash (.vector l) = some l) ∧
    (∀ a b : PyVal, veq a b = true → vhash a = vhash b) := by
  refine ⟨fun q l => ⟨rfl, rfl, rfl, rfl, rfl, rfl, rfl, rfl, rfl, rfl, rfl⟩,
    fun l => rfl, ?_⟩
  intro a b h
  cases a with
  | scalar q =>
    cases b with
    | scalar r => rfl
    | vector m => exact absurd h (by simp [veq])
  | vector l =>
    cases b with
    | scalar r => exact absurd h (by simp [veq])
    | vector m =>
      have : l = m := by
        have hb : (l == m) = true := h
        exact eq_of_beq hb
      rw [vhash, vhash, this]

/-- Witness for the amended C8: the hash-consistency part applied to two
equal concrete vector values. -/
theorem claim_C8_amended_witness :
    veq (.vector [(1:ℚ), 2]) (.vector [1, 2]) = true ∧
      vhash (.vector [(1:ℚ), 2]) = vhash (.vector [1, 2]) :=
  ⟨by decide, claim_C8_amended.2.2 _ _ (by decide)⟩


/-! ## Association-list lemmas for `value_states_dict` -/

lemma dictFind_dictSet_self {σ α : Type} (d : List (ℤ × List (EState σ α))) (f : ℤ)
    (s s2 : List (EState σ α)) (h : dictFind d f = some s) :
    dictFind (dictSet d f s2) f = some s2 := by
  induction d with
  | nil => simp [dictFind] at h
  | cons hd rest ih =>
    obtain ⟨g, st⟩ := hd
    by_cases hg : g = f
    · subst hg; simp [dictFind, dictSet]
    · simp only [dictFind, dictSet, if_neg hg] at h ⊢
      exact ih h

lemma dictFind_dictSet_ne {σ α : Type} (d : List (ℤ × List (EState σ α))) (f g : ℤ)
    (s2 : List (EState σ α)) (hne : g ≠ f) :
    dictFind (dictSet d f s2) g = dictFind d g := by
  induction d with
  | nil => rfl
  | cons hd rest ih =>
    obtain ⟨x, st⟩ := hd
    show dictFind (if x = f then (x, s2) :: rest else (x, st) :: dictSet rest f s2) g =
      (if x = g then some st else dictFind rest g)
    by_cases hx : x = f
    · rw [if_pos hx]
      have hxg : ¬ x = g := fun hh => hne (hx ▸ hh.symm ▸ rfl)
      show (if x = g then some s2 else dictFind rest g) = _
      rw [if_neg hxg, if_neg hxg]
    · rw [if_neg hx]
      show (if x = g then some st else dictFind (dictSet rest f s2) g) = _
      by_cases hxg : x = g
      · rw [if_pos hxg, if_pos hxg]
      · rw [if_neg hxg, if_neg hxg]
        exact ih

lemma dictFind_dictErase_ne {σ α : Type} (d : List (ℤ × List (EState σ α))) (f g : ℤ)
    (hne : g ≠ f) :
    dictFind (dictErase d f) g = dictFind d g := by
  induction d with
  | nil => rfl
  | cons hd rest ih =>
    obtain ⟨x, st⟩ := hd
    show dictFind (if x = f then rest else (x, st) :: dictErase rest f) g =
      (if x = g then some st else dictFind rest g)
    by_cases hx : x = f
    · rw [if_pos hx]
      have hxg : ¬ x = g := fun hh => hne (hx ▸ hh.symm ▸ rfl)
      rw [if_neg hxg]
    · rw [if_neg hx]
      show (if x = g then some st else dictFind (dictErase rest f) g) = _
      by_cases hxg : x = g
      · rw [if_pos hxg, if_pos hxg]
      · rw [if_neg hxg, if_neg hxg]
        exact ih

/-! ## `BestFirstSearch` frontier lemmas -/

/-- Inversion of a successful `bfPop`. -/
lemma bfPop_eq_some {σ α : Type} {q : BFQueue σ α} {f : ℤ} {es : EState σ α}
    {q2 : BFQueue σ α} (h : bfPop q = some ((f, es), q2)) :
    ∃ heapRest stackRest, q.heap = f :: heapRest ∧
      dictFind q.dict f = some (es :: stackRest) ∧
      ((stackRest = [] ∧ q2 = ⟨heapRest, dictErase q.dict f⟩) ∨
        (stackRest ≠ [] ∧ q2 = ⟨f :: heapRest, dictSet q.dict f stackRest⟩)) := by
  obtain ⟨heap, dict⟩ := q
  cases heap with
  | nil => exact absurd h (by simp [bfPop])
  | cons f0 hr =>
    have h2 : (match dictFind dict f0 with
        | none => none
        | some stack =>
          match stack with
          | [] => none
          | es :: stackRest =>
            if stackRest.isEmpty then
              some ((f0, es), (⟨hr, dictErase dict f0⟩ : BFQueue σ α))
            else some ((f0, es), ⟨f0 :: hr, dictSet dict f0 stackRest⟩)) =
        some ((f, es), q2) := h
    cases hd : dictFind dict f0 with
    | none => rw [hd] at h2; exact absurd h2 (by simp)
    | some stack =>
      rw [hd] at h2
      cases stack with
      | nil => exact absurd h2 (by simp)
      | cons e0 sr =>
        simp only at h2
        by_cases hsr : sr.isEmpty
        · rw [if_pos hsr] at h2
          obtain ⟨hpr, hq2⟩ := Prod.mk.injEq .. ▸ Option.some.inj h2
          obtain ⟨hf, he⟩ := Prod.mk.injEq .. ▸ hpr
          subst hf he hq2
          exact ⟨hr, sr, rfl, hd, Or.inl ⟨List.isEmpty_iff.mp hsr, rfl⟩⟩
        · rw [if_neg hsr] at h2
          obtain ⟨hpr, hq2⟩ := Prod.mk.injEq .. ▸ Option.some.inj h2
          obtain ⟨hf, he⟩ := Prod.mk.injEq .. ▸ hpr
          subst hf he hq2
          refine ⟨hr, sr, rfl, hd, Or.inr ⟨?_, rfl⟩⟩
          intro hnil
          exact absurd (by simp [hnil] : sr.isEmpty = true) hsr

lemma BFWF_push {σ α : Type} {q : BFQueue σ α} (hwf : BFWF q) (f : ℤ) (es : EState σ α) :
    BFWF (bfPushF q f es) := by
  obtain ⟨hsort, hnd, hmap⟩ := hwf
  unfold bfPushF
  cases hd : dictFind q.dict f with
  | some stack =>
    refine ⟨hsort, hnd, ?_⟩
    intro g hg
    by_cases hgf : g = f
    · subst hgf
      exact ⟨es :: stack, dictFind_dictSet_self _ _ _ _ hd, by simp⟩
    · obtain ⟨s, hs, hsne⟩ := hmap g hg
      exact ⟨s, by rw [dictFind_dictSet_ne _ _ _ _ hgf]; exact hs, hsne⟩
  | none =>
    have hfnot : f ∉ q.heap := by
      intro hf
      obtain ⟨s, hs, -⟩ := hmap f hf
      rw [hd] at hs; exact absurd hs (by simp)
    refine ⟨List.Sorted.orderedInsert f _ hsort, ?_, ?_⟩
    · exact ((List.perm_orderedInsert _ f _).nodup_iff).mpr (List.nodup_cons.mpr ⟨hfnot, hnd⟩)
    · intro g hg
      rcases (List.mem_orderedInsert _).mp hg with hgf | hgm
      · subst hgf
        exact ⟨[es], by simp [dictFind], by simp⟩
      · have hgf : g ≠ f := fun hh => hfnot (by rw [← hh]; exact hgm)
        obtain ⟨s, hs, hsne⟩ := hmap g hgm
        refine ⟨s, ?_, hsne⟩
        show (if f = g then some [es] else dictFind q.dict g) = some s
        rw [if_neg fun hh => hgf hh.symm]
        exact hs

lemma BFWF_pop {σ α : Type} {q : BFQueue σ α} {f : ℤ} {es : EState σ α}
    {q2 : BFQueue σ α} (hwf : BFWF q) (h : bfPop q = some ((f, es), q2)) :
    BFWF q2 := by
  obtain ⟨hsort, hnd, hmap⟩ := hwf
  obtain ⟨heapRest, stackRest, hheap, hdict, hcase⟩ := bfPop_eq_some h
  have hfnr : f ∉ heapRest := by
    rw [hheap] at hnd; exact (List.nodup_cons.mp hnd).1
  rcases hcase with ⟨-, hq2⟩ | ⟨hne, hq2⟩
  · subst hq2
    refine ⟨?_, ?_, ?_⟩
    · rw [hheap] at hsort; exact hsort.of_cons
    · rw [hheap] at hnd; exact (List.nodup_cons.mp hnd).2
    · intro g hg
      have hgf : g ≠ f := fun hh => hfnr (hh ▸ hg)
      obtain ⟨s, hs, hsne⟩ := hmap g (by rw [hheap]; exact List.mem_cons_of_mem _ hg)
      exact ⟨s, by rw [dictFind_dictErase_ne _ _ _ hgf]; exact hs, hsne⟩
  · subst hq2
    refine ⟨?_, ?_, ?_⟩
    · rw [hheap] at hsort; exact hsort
    · rw [hheap] at hnd; exact hnd
    · intro g hg
      by_cases hgf : g = f
      · subst hgf
        exact ⟨stackRest, dictFind_dictSet_self _ _ _ _ hdict, hne⟩
      · obtain ⟨s, hs, hsne⟩ := hmap g (by rw [hheap]; exact hg)
        exact ⟨s, by rw [dictFind_dictSet_ne _ _ _ _ hgf]; exact hs, hsne⟩

lemma bfPop_isSome {σ α : Type} {q : BFQueue σ α} (hwf : BFWF q)
    (hne : q.heap.length ≠ 0) : (bfPop q).isSome := by
  obtain ⟨-, -, hmap⟩ := hwf
  obtain ⟨heap, dict⟩ := q
  cases heap with
  | nil => simp at hne
  | cons f hr =>
    obtain ⟨s, hs, hsne⟩ := hmap f (List.mem_cons_self _ _)
    cases s with
    | nil => exact absurd rfl hsne
    | cons e0 sr =>
      show (match dictFind dict f with
        | none => none
        | some stack =>
          match stack with
          | [] => none
          | es :: stackRest =>
            if stackRest.isEmpty then
              some ((f, es), (⟨hr, dictErase dict f⟩ : BFQueue σ α))
            else some ((f, es), ⟨f :: hr, dictSet dict f stackRest⟩)).isSome
      rw [hs]
      by_cases hsr : sr.isEmpty
      · simp only [if_pos hsr]; rfl
      · simp only [if_neg hsr]; rfl

/-! ## Contents of a `BestFirstSearch` frontier under push and pop -/

lemma coe_append {E : Type} (s t : List E) : (↑(s ++ t) : Multiset E) = ↑s + ↑t :=
  (Multiset.coe_add s t).symm

lemma dictStack_set_self {σ α : Type} {d : List (ℤ × List (EState σ α))} {f : ℤ}
    {s : List (EState σ α)} (h : dictFind d f = some s) (s2 : List (EState σ α)) :
    dictStack (dictSet d f s2) f = s2 := by
  unfold dictStack
  rw [dictFind_dictSet_self _ _ _ _ h]
  rfl

lemma dictStack_set_ne {σ α : Type} (d : List (ℤ × List (EState σ α))) (f g : ℤ)
    (s2 : List (EState σ α)) (hne : g ≠ f) :
    dictStack (dictSet d f s2) g = dictStack d g := by
  unfold dictStack
  rw [dictFind_dictSet_ne _ _ _ _ hne]

lemma dictStack_erase_ne {σ α : Type} (d : List (ℤ × List (EState σ α))) (f g : ℤ)
    (hne : g ≠ f) : dictStack (dictErase d f) g = dictStack d g := by
  unfold dictStack
  rw [dictFind_dictErase_ne _ _ _ hne]

lemma dictStack_cons_self {σ α : Type} (d : List (ℤ × List (EState σ α))) (f : ℤ)
    (s : List (EState σ α)) : dictStack ((f, s) :: d) f = s := by
  unfold dictStack
  show ((if f = f then some s else dictFind d f).getD []) = s
  rw [if_pos rfl]
  rfl

lemma dictStack_cons_ne {σ α : Type} (d : List (ℤ × List (EState σ α))) (f g : ℤ)
    (s : List (EState σ α)) (hne : g ≠ f) : dictStack ((f, s) :: d) g = dictStack d g := by
  unfold dictStack
  show ((if f = g then some s else dictFind d g).getD []) = _
  rw [if_neg fun hh => hne hh.symm]

lemma flatten_map_orderedInsert {E : Type} (g : ℤ → List E) (f : ℤ) :
    ∀ heap : List ℤ,
      (↑(((heap.orderedInsert (· ≤ ·) f).map g).flatten) : Multiset E) =
        ↑(g f) + ↑((heap.map g).flatten)
  | [] => by
    simp only [List.orderedInsert, List.map_cons, List.map_nil, List.flatten_cons,
      List.flatten_nil, List.append_nil]
    rw [Multiset.coe_nil, add_zero]
  | x :: rest => by
    simp only [List.orderedInsert]
    by_cases hfx : f ≤ x
    · rw [if_pos hfx]
      simp only [List.map_cons, List.flatten_cons]
      rw [coe_append]
    · rw [if_neg hfx]
      simp only [List.map_cons, List.flatten_cons]
      rw [coe_append, coe_append, flatten_map_orderedInsert g f rest, add_left_comm]

lemma flatten_update {E : Type} (g g2 : ℤ → List E) (f : ℤ) :
    ∀ l : List ℤ, l.Nodup → f ∈ l → (∀ x ∈ l, x ≠ f → g2 x = g x) →
      (↑((l.map g2).flatten) : Multiset E) + ↑(g f) =
        ↑((l.map g).flatten) + ↑(g2 f)
  | [], _, hf, _ => absurd hf (by simp)
  | x :: rest, hnd, hf, hother => by
    have hxr : x ∉ rest := (List.nodup_cons.mp hnd).1
    simp only [List.map_cons, List.flatten_cons]
    rcases List.mem_cons.mp hf with hxf | hfr
    · subst hxf
      have hrest : rest.map g2 = rest.map g :=
        List.map_congr_left fun y hy =>
          hother y (List.mem_cons_of_mem _ hy) (fun hyf => hxr (hyf ▸ hy))
      rw [hrest, coe_append, coe_append]
      rw [add_assoc, add_assoc, add_comm ((↑((rest.map g).flatten)) : Multiset E),
        add_comm ((↑((rest.map g).flatten)) : Multiset E), ← add_assoc, ← add_assoc,
        add_comm (↑(g2 f) : Multiset E) (↑(g f) : Multiset E)]
    · have hxf : x ≠ f := fun hh => hxr (hh ▸ hfr)
      have hx2 : g2 x = g x := hother x (List.mem_cons_self _ _) hxf
      have ih := flatten_update g g2 f rest (List.nodup_cons.mp hnd).2 hfr
        (fun y hy hyf => hother y (List.mem_cons_of_mem _ hy) hyf)
      rw [hx2, coe_append, coe_append, add_assoc, ih, add_assoc]

lemma bfContents_push_new {σ α : Type} {q : BFQueue σ α} (hwf : BFWF q) {f : ℤ}
    (hnone : dictFind q.dict f = none) (es : EState σ α) :
    bfContents (bfPushF q f es) = bfContents q + {es} := by
  have hfnot : f ∉ q.heap := by
    intro hf
    obtain ⟨s, hs, -⟩ := hwf.2.2 f hf
    rw [hnone] at hs; exact absurd hs (by simp)
  have hpush : bfPushF q f es = ⟨q.heap.orderedInsert (· ≤ ·) f, (f, [es]) :: q.dict⟩ := by
    unfold bfPushF
    rw [hnone]
  rw [hpush]
  show (↑(((q.heap.orderedInsert (· ≤ ·) f).map
      (dictStack ((f, [es]) :: q.dict))).flatten) : Multiset (EState σ α)) =
    bfContents q + {es}
  rw [flatten_map_orderedInsert, dictStack_cons_self]
  have h2 : q.heap.map (dictStack ((f, [es]) :: q.dict)) = q.heap.map (dictStack q.dict) :=
    List.map_congr_left fun x hx =>
      dictStack_cons_ne _ _ _ _ (fun hh => hfnot (hh ▸ hx))
  rw [h2]
  show (↑[es] : Multiset _) + bfContents q = bfContents q + {es}
  rw [Multiset.coe_singleton, add_comm]

lemma bfContents_push_mem {σ α : Type} {q : BFQueue σ α} (hwf : BFWF q)
    {f : ℤ} {stack : List (EState σ α)} (hs : dictFind q.dict f = some stack)
    (hf : f ∈ q.heap) (es : EState σ α) :
    bfContents (bfPushF q f es) = bfContents q + {es} := by
  have hpush : bfPushF q f es = ⟨q.heap, dictSet q.dict f (es :: stack)⟩ := by
    unfold bfPushF
    rw [hs]
  have hupd := flatten_update (dictStack q.dict)
    (dictStack (dictSet q.dict f (es :: stack))) f q.heap hwf.2.1 hf
    (fun x _ hxf => dictStack_set_ne _ _ _ _ hxf)
  have hgf : dictStack q.dict f = stack := by unfold dictStack; rw [hs]; rfl
  have hg2f : dictStack (dictSet q.dict f (es :: stack)) f = es :: stack :=
    dictStack_set_self hs _
  rw [hgf, hg2f, ← Multiset.cons_coe, ← Multiset.singleton_add] at hupd
  have hupd2 : bfContents (⟨q.heap, dictSet q.dict f (es :: stack)⟩ : BFQueue σ α) +
      ↑stack = bfContents q + {es} + ↑stack :=
    calc bfContents (⟨q.heap, dictSet q.dict f (es :: stack)⟩ : BFQueue σ α) + ↑stack
        = (↑((q.heap.map (dictStack (dictSet q.dict f (es :: stack)))).flatten) :
            Multiset (EState σ α)) + ↑stack := rfl
      _ = (↑((q.heap.map (dictStack q.dict)).flatten) : Multiset (EState σ α)) +
            ({es} + ↑stack) := hupd
      _ = bfContents q + {es} + ↑stack := by rw [← add_assoc]; rfl
  rw [hpush]
  exact add_right_cancel hupd2

lemma bfContents_push_orphan {σ α : Type} {q : BFQueue σ α}
    {f : ℤ} {stack : List (EState σ α)} (hs : dictFind q.dict f = some stack)
    (hf : f ∉ q.heap) (es : EState σ α) :
    (bfPushF q f es).heap = q.heap ∧ bfContents (bfPushF q f es) = bfContents q ∧
      dictFind (bfPushF q f es).dict f = some (es :: stack) := by
  have hpush : bfPushF q f es = ⟨q.heap, dictSet q.dict f (es :: stack)⟩ := by
    unfold bfPushF
    rw [hs]
  rw [hpush]
  refine ⟨rfl, ?_, dictFind_dictSet_self _ _ _ _ hs⟩
  show (↑((q.heap.map (dictStack (dictSet q.dict f (es :: stack)))).flatten) :
    Multiset (EState σ α)) = bfContents q
  have h2 : q.heap.map (dictStack (dictSet q.dict f (es :: stack))) =
      q.heap.map (dictStack q.dict) :=
    List.map_congr_left fun x hx =>
      dictStack_set_ne _ _ _ _ (fun hh => hf (hh ▸ hx))
  rw [h2]
  rfl

lemma bfContents_pop {σ α : Type} {q : BFQueue σ α} {f : ℤ} {es : EState σ α}
    {q2 : BFQueue σ α} (hwf : BFWF q) (h : bfPop q = some ((f, es), q2)) :
    bfContents q = es ::ₘ bfContents q2 := by
  obtain ⟨heapRest, stackRest, hheap, hdict, hcase⟩ := bfPop_eq_some h
  have hfnr : f ∉ heapRest := by
    have := hwf.2.1; rw [hheap] at this; exact (List.nodup_cons.mp this).1
  have hgf : dictStack q.dict f = es :: stackRest := by unfold dictStack; rw [hdict]; rfl
  have hcq : bfContents q =
      (↑(es :: stackRest) : Multiset (EState σ α)) +
        ↑((heapRest.map (dictStack q.dict)).flatten) := by
    show (↑((q.heap.map (dictStack q.dict)).flatten) : Multiset (EState σ α)) =
      (↑(es :: stackRest) : Multiset (EState σ α)) +
        ↑((heapRest.map (dictStack q.dict)).flatten)
    rw [hheap, List.map_cons, List.flatten_cons, coe_append, hgf]
  rcases hcase with ⟨hnil, hq2⟩ | ⟨hne, hq2⟩
  · subst hnil hq2
    have h2 : heapRest.map (dictStack (dictErase q.dict f)) =
        heapRest.map (dictStack q.dict) :=
      List.map_congr_left fun x hx =>
        dictStack_erase_ne _ _ _ (fun hh => hfnr (hh ▸ hx))
    have h3 : bfContents (⟨heapRest, dictErase q.dict f⟩ : BFQueue σ α) =
        ↑((heapRest.map (dictStack q.dict)).flatten) := by
      show (↑((heapRest.map (dictStack (dictErase q.dict f))).flatten) :
        Multiset (EState σ α)) = ↑((heapRest.map (dictStack q.dict)).flatten)
      rw [h2]
    rw [hcq, h3, Multiset.coe_singleton, ← Multiset.singleton_add]
  · subst hq2
    have h2 : heapRest.map (dictStack (dictSet q.dict f stackRest)) =
        heapRest.map (dictStack q.dict) :=
      List.map_congr_left fun x hx =>
        dictStack_set_ne _ _ _ _ (fun hh => hfnr (hh ▸ hx))
    have hg2f : dictStack (dictSet q.dict f stackRest) f = stackRest :=
      dictStack_set_self hdict _
    have h3 : bfContents (⟨f :: heapRest, dictSet q.dict f stackRest⟩ : BFQueue σ α) =
        ↑stackRest + ↑((heapRest.map (dictStack q.dict)).flatten) := by
      show (↑(((f :: heapRest).map (dictStack (dictSet q.dict f stackRest))).flatten) :
        Multiset (EState σ α)) = ↑stackRest + ↑((heapRest.map (dictStack q.dict)).flatten)
      rw [List.map_cons, List.flatten_cons, coe_append, hg2f, h2]
    rw [hcq, h3, ← Multiset.cons_coe, ← Multiset.singleton_add,
      ← Multiset.singleton_add, add_assoc]

/-! ## The four frontier policies satisfy the laws -/

lemma bfsOK [DecidableEq σ] [DecidableEq α] (p : SProb σ α) :
    PolicyOK p (bfsPol σ α) (fun _ => True) (fun q => (↑q : Multiset (EState σ α))) where
  createW := trivial
  pushW _ _ _ := trivial
  popW _ _ _ _ _ := trivial
  popSome q _ hne := by
    cases q with
    | nil => simp [bfsPol] at hne
    | cons es rest => simp [bfsPol]
  createC := rfl
  pushC q es _ := by
    show ((↑(q ++ [es]) : Multiset (EState σ α)) ≤ ↑q + {es})
    rw [coe_append, Multiset.coe_singleton]
  popC q es q2 _ hpop := by
    cases q with
    | nil => simp [bfsPol] at hpop
    | cons e0 rest =>
      have h1 : e0 = es ∧ rest = q2 := by
        constructor
        · exact congrArg Prod.fst (Option.some.inj hpop)
        · exact congrArg Prod.snd (Option.some.inj hpop)
      obtain ⟨rfl, rfl⟩ := h1
      constructor
      · rw [← Multiset.cons_coe]; exact Multiset.mem_cons_self _ _
      · rw [← Multiset.cons_coe, Multiset.erase_cons_head]

lemma dfsOK [DecidableEq σ] [DecidableEq α] (p : SProb σ α) :
    PolicyOK p (dfsPol σ α) (fun _ => True) (fun q => (↑q : Multiset (EState σ α))) where
  createW := trivial
  pushW _ _ _ := trivial
  popW _ _ _ _ _ := trivial
  popSome q _ hne := by
    cases q with
    | nil => simp [dfsPol] at hne
    | cons es rest => simp [dfsPol]
  createC := rfl
  pushC q es _ := by
    show ((↑(es :: q) : Multiset (EState σ α)) ≤ ↑q + {es})
    rw [← Multiset.cons_coe, ← Multiset.singleton_add, add_comm]
  popC q es q2 _ hpop := by
    cases q with
    | nil => simp [dfsPol] at hpop
    | cons e0 rest =>
      have h1 : e0 = es ∧ rest = q2 := by
        constructor
        · exact congrArg Prod.fst (Option.some.inj hpop)
        · exact congrArg Prod.snd (Option.some.inj hpop)
      obtain ⟨rfl, rfl⟩ := h1
      constructor
      · rw [← Multiset.cons_coe]; exact Multiset.mem_cons_self _ _
      · rw [← Multiset.cons_coe, Multiset.erase_cons_head]

lemma greedyOK [DecidableEq σ] [DecidableEq α] (p : SProb σ α) :
    PolicyOK p (greedyPol p) (fun _ => True) (fun q => (↑q : Multiset (EState σ α))) where
  createW := trivial
  pushW _ _ _ := trivial
  popW _ _ _ _ _ := trivial
  popSome q _ hne := by
    cases hq : q.getLast? with
    | none =>
      rw [List.getLast?_eq_none_iff] at hq
      exact absurd (by rw [hq]; rfl : (greedyPol p).size q = 0) hne
    | some es =>
      show (match q.getLast? with
        | none => none
        | some es => some (es, q.dropLast)).isSome
      rw [hq]; rfl
  createC := rfl
  pushC q es _ := by
    cases q with
    | nil =>
      show ((↑[es] : Multiset (EState σ α)) ≤ ↑([] : List (EState σ α)) + {es})
      rw [Multiset.coe_singleton, Multiset.coe_nil, zero_add]
    | cons h0 rest =>
      show ((↑(if p.value es.st < p.value h0.st then [es] else h0 :: rest)) :
        Multiset (EState σ α)) ≤ ↑(h0 :: rest) + {es}
      by_cases hlt : p.value es.st < p.value h0.st
      · rw [if_pos hlt, Multiset.coe_singleton]
        exact le_add_self
      · rw [if_neg hlt]
        exact le_add_right (le_refl _)
  popC q es q2 _ hpop := by
    cases hq : q.getLast? with
    | none =>
      have hpop2 : (match q.getLast? with
          | none => (none : Option (EState σ α × List (EState σ α)))
          | some es => some (es, q.dropLast)) = some (es, q2) := hpop
      rw [hq] at hpop2
      exact absurd hpop2 (by simp)
    | some e0 =>
      have hpop2 : (match q.getLast? with
          | none => (none : Option (EState σ α × List (EState σ α)))
          | some es => some (es, q.dropLast)) = some (es, q2) := hpop
      rw [hq] at hpop2
      have h1 : e0 = es ∧ q.dropLast = q2 := by
        constructor
        · exact congrArg Prod.fst (Option.some.inj hpop2)
        · exact congrArg Prod.snd (Option.some.inj hpop2)
      obtain ⟨rfl, rfl⟩ := h1
      have hsplit : q.dropLast ++ [e0] = q := List.dropLast_append_getLast? e0 hq
      have hq2 : (↑q : Multiset (EState σ α)) = e0 ::ₘ ↑q.dropLast := by
        conv_lhs => rw [← hsplit]
        rw [coe_append, Multiset.coe_singleton, add_comm, Multiset.singleton_add]
      constructor
      · rw [hq2]; exact Multiset.mem_cons_self _ _
      · rw [hq2, Multiset.erase_cons_head]

lemma bestOK [DecidableEq σ] [DecidableEq α] (p : SProb σ α) (h : σ → ℤ)
    (dict0 : List (ℤ × List (EState σ α))) :
    PolicyOK p (bestPol p h dict0) BFWF bfContents where
  createW := ⟨List.sorted_nil, List.nodup_nil, fun f hf => absurd hf (List.not_mem_nil f)⟩
  pushW q es hwf := BFWF_push hwf _ es
  popW q es q2 hwf hpop := by
    obtain ⟨pr, hbf, hpr⟩ := Option.map_eq_some'.mp hpop
    obtain ⟨⟨f, es0⟩, q0⟩ := pr
    have h1 : es0 = es ∧ q0 = q2 := by
      constructor
      · exact congrArg Prod.fst hpr
      · exact congrArg Prod.snd hpr
    obtain ⟨rfl, rfl⟩ := h1
    exact BFWF_pop hwf hbf
  popSome q hwf hne := by
    have hs := bfPop_isSome hwf hne
    show ((bfPop q).map fun pr => (pr.1.2, pr.2)).isSome
    cases hb : bfPop q with
    | none => rw [hb] at hs; exact absurd hs (by simp)
    | some pr => rfl
  createC := by
    show (↑((([] : List ℤ).map (dictStack dict0)).flatten) : Multiset (EState σ α)) = 0
    rfl
  pushC q es hwf := by
    show bfContents (bfPushF q (p.value es.st + h es.st) es) ≤ bfContents q + {es}
    cases hd : dictFind q.dict (p.value es.st + h es.st) with
    | none => rw [bfContents_push_new hwf hd es]
    | some stack =>
      by_cases hf : (p.value es.st + h es.st) ∈ q.heap
      · rw [bfContents_push_mem hwf hd hf es]
      · rw [(bfContents_push_orphan hd hf es).2.1]
        exact le_add_right (le_refl _)
  popC q es q2 hwf hpop := by
    obtain ⟨pr, hbf, hpr⟩ := Option.map_eq_some'.mp hpop
    obtain ⟨⟨f, es0⟩, q0⟩ := pr
    have h1 : es0 = es ∧ q0 = q2 := by
      constructor
      · exact congrArg Prod.fst hpr
      · exact congrArg Prod.snd hpr
    obtain ⟨rfl, rfl⟩ := h1
    have hc := bfContents_pop hwf hbf
    constructor
    · rw [hc]; exact Multiset.mem_cons_self _ _
    · rw [hc, Multiset.erase_cons_head]

/-! ## Generic properties of the `Search.solve` loop -/

lemma hashes_cons (p : SProb σ α) (es : EState σ α) (tr : List (EState σ α)) :
    hashes p (es :: tr) = p.hash es.st ::ₘ hashes p tr := by
  unfold hashes
  rw [List.map_cons, ← Multiset.cons_coe]

lemma pushIfNew_W [DecidableEq σ] [DecidableEq α] {p : SProb σ α} {Q : Type}
    {pol : Policy σ α Q} {W : Q → Prop} {γ} (ok : PolicyOK p pol W γ)
    {q : Q} (seen : List Int) (es : EState σ α) (hW : W q) :
    W (pushIfNew p pol q seen es).1 := by
  unfold pushIfNew
  by_cases hmem : p.hash es.st ∈ seen
  · rw [if_pos hmem]; exact hW
  · rw [if_neg hmem]; exact ok.pushW q es hW

lemma pushList_W [DecidableEq σ] [DecidableEq α] {p : SProb σ α} {Q : Type}
    {pol : Policy σ α Q} {W : Q → Prop} {γ} (ok : PolicyOK p pol W γ) :
    ∀ (l : List (EState σ α)) (q : Q) (seen : List Int), W q →
      W (pushList p pol q seen l).1
  | [], q, seen, hW => hW
  | es :: rest, q, seen, hW =>
    pushList_W ok rest _ _ (pushIfNew_W ok seen es hW)

lemma pushIfNew_inv [DecidableEq σ] [DecidableEq α] {p : SProb σ α} {Q : Type}
    {pol : Policy σ α Q} {W : Q → Prop} {γ} (ok : PolicyOK p pol W γ)
    {q : Q} {seen : List Int} {tr : List (EState σ α)} (es : EState σ α)
    (hW : W q) (hinv : SeenInv p γ q seen tr) :
    SeenInv p γ (pushIfNew p pol q seen es).1 (pushIfNew p pol q seen es).2 tr ∧
      ∀ x ∈ seen, x ∈ (pushIfNew p pol q seen es).2 := by
  unfold pushIfNew
  by_cases hmem : p.hash es.st ∈ seen
  · rw [if_pos hmem]
    exact ⟨hinv, fun x hx => hx⟩
  · rw [if_neg hmem]
    obtain ⟨hnd, hseen⟩ := hinv
    have hnotM : p.hash es.st ∉
        hashes p tr + (γ q).map fun es => p.hash es.st :=
      fun hh => hmem (hseen _ hh)
    have hle : (hashes p tr + (γ (pol.push q es)).map fun es => p.hash es.st) ≤
        (hashes p tr + (γ q).map fun es => p.hash es.st) + {p.hash es.st} := by
      have h1 := Multiset.map_le_map (f := fun es => p.hash es.st) (ok.pushC q es hW)
      rw [Multiset.map_add, Multiset.map_singleton] at h1
      calc (hashes p tr + (γ (pol.push q es)).map fun es => p.hash es.st)
          ≤ hashes p tr + (((γ q).map fun es => p.hash es.st) + {p.hash es.st}) :=
            add_le_add_left h1 _
        _ = (hashes p tr + (γ q).map fun es => p.hash es.st) + {p.hash es.st} := by
            rw [add_assoc]
    have hndBig : ((hashes p tr + (γ q).map fun es => p.hash es.st) +
        {p.hash es.st}).Nodup := by
      rw [Multiset.nodup_add]
      refine ⟨hnd, Multiset.nodup_singleton _, ?_⟩
      rw [Multiset.disjoint_comm, Multiset.singleton_disjoint]
      exact hnotM
    refine ⟨⟨Multiset.nodup_of_le hle hndBig, ?_⟩, fun x hx => List.mem_cons_of_mem _ hx⟩
    intro x hx
    rcases Multiset.mem_add.mp (Multiset.mem_of_le hle hx) with hx2 | hx2
    · exact List.mem_cons_of_mem _ (hseen _ hx2)
    · rw [Multiset.mem_singleton] at hx2
      rw [hx2]
      exact List.mem_cons_self _ _

lemma pushList_inv [DecidableEq σ] [DecidableEq α] {p : SProb σ α} {Q : Type}
    {pol : Policy σ α Q} {W : Q → Prop} {γ} (ok : PolicyOK p pol W γ) :
    ∀ (l : List (EState σ α)) (q : Q) (seen : List Int) (tr : List (EState σ α)),
      W q → SeenInv p γ q seen tr →
      SeenInv p γ (pushList p pol q seen l).1 (pushList p pol q seen l).2 tr
  | [], q, seen, tr, _, hinv => hinv
  | es :: rest, q, seen, tr, hW, hinv => by
    have h1 := pushIfNew_inv ok es hW hinv
    exact pushList_inv ok rest _ _ tr (pushIfNew_W ok seen es hW) h1.1

lemma pop_inv [DecidableEq σ] [DecidableEq α] {p : SProb σ α} {Q : Type}
    {pol : Policy σ α Q} {W : Q → Prop} {γ} (ok : PolicyOK p pol W γ)
    {q q2 : Q} {es : EState σ α} {seen : List Int} {tr : List (EState σ α)}
    (hW : W q) (hpop : pol.pop q = some (es, q2)) (hinv : SeenInv p γ q seen tr) :
    W q2 ∧ SeenInv p γ q2 seen (es :: tr) := by
  obtain ⟨hmem, hle⟩ := ok.popC q es q2 hW hpop
  obtain ⟨hnd, hseen⟩ := hinv
  have hmap : ((γ q).map fun es => p.hash es.st) =
      p.hash es.st ::ₘ ((γ q).erase es).map fun es => p.hash es.st := by
    conv_lhs => rw [← Multiset.cons_erase hmem]
    rw [Multiset.map_cons]
  have hMeq : (hashes p tr + (γ q).map fun es => p.hash es.st) =
      (hashes p (es :: tr) + ((γ q).erase es).map fun es => p.hash es.st) := by
    rw [hmap, hashes_cons, ← Multiset.singleton_add, ← Multiset.singleton_add,
      ← add_assoc, add_comm (hashes p tr) ({p.hash es.st} : Multiset Int), add_assoc]
  have hle2 : (hashes p (es :: tr) + (γ q2).map fun es => p.hash es.st) ≤
      hashes p tr + (γ q).map fun es => p.hash es.st := by
    rw [hMeq]
    exact add_le_add_left (Multiset.map_le_map hle) _
  refine ⟨ok.popW q es q2 hW hpop, Multiset.nodup_of_le hle2 hnd, ?_⟩
  intro x hx
  exact hseen _ (Multiset.mem_of_le hle2 hx)

/-- One unfolding of the loop. -/
lemma solveAux_succ (p : SProb σ α) (pol : Policy σ α Q) (timeout : WithTop ℤ)
    (times : Nat → ℤ) (start : ℤ) (fuel k : Nat) (q : Q) (seen : List Int)
    (tr : List (EState σ α)) :
    solveAux p pol timeout times start (fuel + 1) k q seen tr =
      if pol.size q = 0 then ⟨.ret none, tr.reverse, q, seen⟩
      else if timeout < ((times k - start : ℤ) : WithTop ℤ) then
        ⟨.timeoutErr, tr.reverse, q, seen⟩
      else
        match pol.pop q with
        | none => ⟨.stuck, tr.reverse, q, seen⟩
        | some (es, q2) =>
          if p.isSolution es.st then ⟨.ret (some es), (es :: tr).reverse, q2, seen⟩
          else
            let pr := pushList p pol q2 seen (branch p es)
            solveAux p pol timeout times start fuel (k + 1) pr.1 pr.2 (es :: tr) := rfl

lemma solveAux_empty {p : SProb σ α} {Q : Type} {pol : Policy σ α Q}
    {timeout : WithTop ℤ} {times : Nat → ℤ} {start : ℤ} {fuel k : Nat} {q : Q}
    {seen : List Int} {tr : List (EState σ α)} (hsz : pol.size q = 0) :
    solveAux p pol timeout times start (fuel + 1) k q seen tr =
      ⟨.ret none, tr.reverse, q, seen⟩ := by
  rw [solveAux_succ, if_pos hsz]

lemma solveAux_timeout {p : SProb σ α} {Q : Type} {pol : Policy σ α Q}
    {timeout : WithTop ℤ} {times : Nat → ℤ} {start : ℤ} {fuel k : Nat} {q : Q}
    {seen : List Int} {tr : List (EState σ α)} (hsz : ¬ pol.size q = 0)
    (ht : timeout < ((times k - start : ℤ) : WithTop ℤ)) :
    solveAux p pol timeout times start (fuel + 1) k q seen tr =
      ⟨.timeoutErr, tr.reverse, q, seen⟩ := by
  rw [solveAux_succ, if_neg hsz, if_pos ht]

lemma solveAux_goal {p : SProb σ α} {Q : Type} {pol : Policy σ α Q}
    {timeout : WithTop ℤ} {times : Nat → ℤ} {start : ℤ} {fuel k : Nat} {q q2 : Q}
    {es : EState σ α} {seen : List Int} {tr : List (EState σ α)}
    (hsz : ¬ pol.size q = 0) (ht : ¬ timeout < ((times k - start : ℤ) : WithTop ℤ))
    (hpop : pol.pop q = some (es, q2)) (hsol : p.isSolution es.st = true) :
    solveAux p pol timeout times start (fuel + 1) k q seen tr =
      ⟨.ret (some es), (es :: tr).reverse, q2, seen⟩ := by
  rw [solveAux_succ, if_neg hsz, if_neg ht, hpop]
  show (if p.isSolution es.st = true then
      (⟨.ret (some es), (es :: tr).reverse, q2, seen⟩ : SolveRes σ α Q)
    else
      let pr := pushList p pol q2 seen (branch p es)
      solveAux p pol timeout times start fuel (k + 1) pr.1 pr.2 (es :: tr)) = _
  rw [if_pos hsol]

lemma solveAux_next {p : SProb σ α} {Q : Type} {pol : Policy σ α Q}
    {timeout : WithTop ℤ} {times : Nat → ℤ} {start : ℤ} {fuel k : Nat} {q q2 : Q}
    {es : EState σ α} {seen : List Int} {tr : List (EState σ α)}
    (hsz : ¬ pol.size q = 0) (ht : ¬ timeout < ((times k - start : ℤ) : WithTop ℤ))
    (hpop : pol.pop q = some (es, q2)) (hsol : ¬ p.isSolution es.st = true) :
    solveAux p pol timeout times start (fuel + 1) k q seen tr =
      solveAux p pol timeout times start fuel (k + 1)
        (pushList p pol q2 seen (branch p es)).1
        (pushList p pol q2 seen (branch p es)).2 (es :: tr) := by
  rw [solveAux_succ, if_neg hsz, if_neg ht, hpop]
  show (if p.isSolution es.st = true then
      (⟨.ret (some es), (es :: tr).reverse, q2, seen⟩ : SolveRes σ α Q)
    else
      let pr := pushList p pol q2 seen (branch p es)
      solveAux p pol timeout times start fuel (k + 1) pr.1 pr.2 (es :: tr)) = _
  rw [if_neg hsol]

lemma solveAux_contract [DecidableEq σ] [DecidableEq α] {p : SProb σ α} {Q : Type}
    {pol : Policy σ α Q} {W : Q → Prop} {γ} (ok : PolicyOK p pol W γ)
    (timeout : WithTop ℤ) (times : Nat → ℤ) (start : ℤ) :
    ∀ (fuel k : Nat) (q : Q) (seen : List Int) (tr : List (EState σ α)), W q →
      SolveContract p pol (solveAux p pol timeout times start fuel k q seen tr) := by
  intro fuel
  induction fuel with
  | zero =>
    intro k q seen tr _
    exact ⟨(fun h => nomatch h), (fun h => nomatch h), (fun h => nomatch h), Or.inl rfl⟩
  | succ fuel ih =>
    intro k q seen tr hW
    by_cases hsz : pol.size q = 0
    · rw [solveAux_empty hsz]
      exact ⟨(fun h => nomatch h), (fun _ => hsz), (fun h => nomatch h),
        Or.inr (Or.inr (Or.inl rfl))⟩
    · by_cases htime : timeout < ((times k - start : ℤ) : WithTop ℤ)
      · rw [solveAux_timeout hsz htime]
        exact ⟨(fun h => nomatch h), (fun h => nomatch h), (fun _ => hsz),
          Or.inr (Or.inl rfl)⟩
      · cases hpop : pol.pop q with
        | none =>
          have hsome := ok.popSome q hW hsz
          rw [hpop] at hsome
          exact absurd hsome (by simp)
        | some pr =>
          obtain ⟨es, q2⟩ := pr
          by_cases hsol : p.isSolution es.st = true
          · rw [solveAux_goal hsz htime hpop hsol]
            refine ⟨(fun h => nomatch h), (fun h => nomatch (SOutcome.ret.inj h)),
              (fun h => nomatch h), Or.inr (Or.inr (Or.inr ⟨es, rfl, hsol, ?_⟩))⟩
            exact List.mem_reverse.mpr (List.mem_cons_self _ _)
          · rw [solveAux_next hsz htime hpop hsol]
            exact ih (k + 1) _ _ (es :: tr)
              (pushList_W ok _ _ _ (ok.popW q es q2 hW hpop))

lemma solveAux_nodup [DecidableEq σ] [DecidableEq α] {p : SProb σ α} {Q : Type}
    {pol : Policy σ α Q} {W : Q → Prop} {γ} (ok : PolicyOK p pol W γ)
    (timeout : WithTop ℤ) (times : Nat → ℤ) (start : ℤ) :
    ∀ (fuel k : Nat) (q : Q) (seen : List Int) (tr : List (EState σ α)),
      W q → SeenInv p γ q seen tr →
      (((solveAux p pol timeout times start fuel k q seen tr).trace).map
        fun es => p.hash es.st).Nodup := by
  have trNodup : ∀ (tr2 : List (EState σ α)) (q2 : Q) (seen2 : List Int),
      SeenInv p γ q2 seen2 tr2 →
      ((tr2.reverse).map fun es => p.hash es.st).Nodup := by
    intro tr2 q2 seen2 hinv
    rw [List.map_reverse, List.nodup_reverse, ← Multiset.coe_nodup]
    exact Multiset.nodup_of_le (le_add_right (le_refl _)) hinv.1
  intro fuel
  induction fuel with
  | zero =>
    intro k q seen tr _ hinv
    exact trNodup tr q seen hinv
  | succ fuel ih =>
    intro k q seen tr hW hinv
    by_cases hsz : pol.size q = 0
    · rw [solveAux_empty hsz]
      exact trNodup tr q seen hinv
    · by_cases htime : timeout < ((times k - start : ℤ) : WithTop ℤ)
      · rw [solveAux_timeout hsz htime]
        exact trNodup tr q seen hinv
      · cases hpop : pol.pop q with
        | none =>
          have hsome := ok.popSome q hW hsz
          rw [hpop] at hsome
          exact absurd hsome (by simp)
        | some pr =>
          obtain ⟨es, q2⟩ := pr
          obtain ⟨hW2, hinv2⟩ := pop_inv ok hW hpop hinv
          by_cases hsol : p.isSolution es.st = true
          · rw [solveAux_goal hsz htime hpop hsol]
            exact trNodup (es :: tr) q2 seen hinv2
          · rw [solveAux_next hsz htime hpop hsol]
            exact ih (k + 1) _ _ (es :: tr) (pushList_W ok _ _ _ hW2)
              (pushList_inv ok _ _ _ _ hW2 hinv2)

/-- The invariant at entry: empty seen set, empty trace, freshly created
frontier, then `push_if_new` of the initial state. -/
lemma genericSolve_start_inv [DecidableEq σ] [DecidableEq α] {p : SProb σ α} {Q : Type}
    {pol : Policy σ α Q} {W : Q → Prop} {γ} (ok : PolicyOK p pol W γ)
    (es : EState σ α) :
    W (pushIfNew p pol pol.create [] es).1 ∧
      SeenInv p γ (pushIfNew p pol pol.create [] es).1
        (pushIfNew p pol pol.create [] es).2 [] := by
  have hbase : SeenInv p γ pol.create [] [] := by
    constructor
    · rw [ok.createC]
      show (hashes p [] + (0 : Multiset (EState σ α)).map fun es => p.hash es.st).Nodup
      rw [Multiset.map_zero, add_zero]
      exact Multiset.nodup_zero
    · intro x hx
      rw [ok.createC] at hx
      rw [show hashes p [] = 0 from rfl, Multiset.map_zero, add_zero] at hx
      exact absurd hx (Multiset.not_mem_zero x)
  exact ⟨pushIfNew_W ok [] es ok.createW,
    (pushIfNew_inv ok es ok.createW hbase).1⟩

lemma genericSolve_contract [DecidableEq σ] [DecidableEq α] {p : SProb σ α} {Q : Type}
    {pol : Policy σ α Q} {W : Q → Prop} {γ} (ok : PolicyOK p pol W γ)
    (initOv : Option σ) (timeout : WithTop ℤ) (times : Nat → ℤ) (start : ℤ) (fuel : Nat) :
    SolveContract p pol (genericSolve p pol initOv timeout times start fuel) := by
  unfold genericSolve
  exact solveAux_contract ok timeout times start fuel 0 _ _ []
    (genericSolve_start_inv ok _).1

lemma genericSolve_nodup [DecidableEq σ] [DecidableEq α] {p : SProb σ α} {Q : Type}
    {pol : Policy σ α Q} {W : Q → Prop} {γ} (ok : PolicyOK p pol W γ)
    (initOv : Option σ) (timeout : WithTop ℤ) (times : Nat → ℤ) (start : ℤ) (fuel : Nat) :
    (((genericSolve p pol initOv timeout times start fuel).trace).map
      fun es => p.hash es.st).Nodup := by
  unfold genericSolve
  obtain ⟨hW, hinv⟩ := genericSolve_start_inv ok
    (⟨initOv.getD p.initialState, []⟩ : EState σ α)
  exact solveAux_nodup ok timeout times start fuel 0 _ _ [] hW hinv

/-! ## `GreedySearch.solve`'s own loop -/

lemma greedyAux_succ (p : SProb σ α) (timeout : WithTop ℤ) (times : Nat → ℤ)
    (start : ℤ) (fuel k : Nat) (q : List (EState σ α)) (seen : List Int)
    (tr : List (EState σ α)) (best : EState σ α) (bestv : ℤ) :
    greedyAux p timeout times start (fuel + 1) k q seen tr best bestv =
      if q.length = 0 then ⟨.ret (some best), tr.reverse, q, seen⟩
      else if timeout < ((times k - start : ℤ) : WithTop ℤ) then
        ⟨.ret (some best), tr.reverse, q, seen⟩
      else
        match (greedyPol p).pop q with
        | none => ⟨.stuck, tr.reverse, q, seen⟩
        | some (cur, q2) =>
          if bestv < p.value cur.st then ⟨.ret (some best), (cur :: tr).reverse, q2, seen⟩
          else
            let pr := pushList p (greedyPol p) q2 seen (branch p cur)
            greedyAux p timeout times start fuel (k + 1) pr.1 pr.2 (cur :: tr)
              cur (p.value cur.st) := rfl

lemma greedyAux_empty {p : SProb σ α} {timeout : WithTop ℤ} {times : Nat → ℤ}
    {start : ℤ} {fuel k : Nat} {q : List (EState σ α)} {seen : List Int}
    {tr : List (EState σ α)} {best : EState σ α} {bestv : ℤ} (hsz : q.length = 0) :
    greedyAux p timeout times start (fuel + 1) k q seen tr best bestv =
      ⟨.ret (some best), tr.reverse, q, seen⟩ := by
  rw [greedyAux_succ, if_pos hsz]

lemma greedyAux_timeout {p : SProb σ α} {timeout : WithTop ℤ} {times : Nat → ℤ}
    {start : ℤ} {fuel k : Nat} {q : List (EState σ α)} {seen : List Int}
    {tr : List (EState σ α)} {best : EState σ α} {bestv : ℤ} (hsz : ¬ q.length = 0)
    (ht : timeout < ((times k - start : ℤ) : WithTop ℤ)) :
    greedyAux p timeout times start (fuel + 1) k q seen tr best bestv =
      ⟨.ret (some best), tr.reverse, q, seen⟩ := by
  rw [greedyAux_succ, if_neg hsz, if_pos ht]

lemma greedyAux_break {p : SProb σ α} {timeout : WithTop ℤ} {times : Nat → ℤ}
    {start : ℤ} {fuel k : Nat} {q q2 : List (EState σ α)} {cur : EState σ α}
    {seen : List Int} {tr : List (EState σ α)} {best : EState σ α} {bestv : ℤ}
    (hsz : ¬ q.length = 0) (ht : ¬ timeout < ((times k - start : ℤ) : WithTop ℤ))
    (hpop : (greedyPol p).pop q = some (cur, q2)) (hlt : bestv < p.value cur.st) :
    greedyAux p timeout times start (fuel + 1) k q seen tr best bestv =
      ⟨.ret (some best), (cur :: tr).reverse, q2, seen⟩ := by
  rw [greedyAux_succ, if_neg hsz, if_neg ht, hpop]
  show (if bestv < p.value cur.st then
      (⟨.ret (some best), (cur :: tr).reverse, q2, seen⟩ :
        SolveRes σ α (List (EState σ α)))
    else
      let pr := pushList p (greedyPol p) q2 seen (branch p cur)
      greedyAux p timeout times start fuel (k + 1) pr.1 pr.2 (cur :: tr)
        cur (p.value cur.st)) = _
  rw [if_pos hlt]

lemma greedyAux_next {p : SProb σ α} {timeout : WithTop ℤ} {times : Nat → ℤ}
    {start : ℤ} {fuel k : Nat} {q q2 : List (EState σ α)} {cur : EState σ α}
    {seen : List Int} {tr : List (EState σ α)} {best : EState σ α} {bestv : ℤ}
    (hsz : ¬ q.length = 0) (ht : ¬ timeout < ((times k - start : ℤ) : WithTop ℤ))
    (hpop : (greedyPol p).pop q = some (cur, q2)) (hlt : ¬ bestv < p.value cur.st) :
    greedyAux p timeout times start (fuel + 1) k q seen tr best bestv =
      greedyAux p timeout times start fuel (k + 1)
        (pushList p (greedyPol p) q2 seen (branch p cur)).1
        (pushList p (greedyPol p) q2 seen (branch p cur)).2 (cur :: tr)
        cur (p.value cur.st) := by
  rw [greedyAux_succ, if_neg hsz, if_neg ht, hpop]
  show (if bestv < p.value cur.st then
      (⟨.ret (some best), (cur :: tr).reverse, q2, seen⟩ :
        SolveRes σ α (List (EState σ α)))
    else
      let pr := pushList p (greedyPol p) q2 seen (branch p cur)
      greedyAux p timeout times start fuel (k + 1) pr.1 pr.2 (cur :: tr)
        cur (p.value cur.st)) = _
  rw [if_neg hlt]

lemma greedyAux_nodup [DecidableEq σ] [DecidableEq α] (p : SProb σ α)
    (timeout : WithTop ℤ) (times : Nat → ℤ) (start : ℤ) :
    ∀ (fuel k : Nat) (q : List (EState σ α)) (seen : List Int)
      (tr : List (EState σ α)) (best : EState σ α) (bestv : ℤ),
      SeenInv p (fun q => (↑q : Multiset (EState σ α))) q seen tr →
      (((greedyAux p timeout times start fuel k q seen tr best bestv).trace).map
        fun es => p.hash es.st).Nodup := by
  have ok := greedyOK p
  have trNodup : ∀ (tr2 : List (EState σ α)) (q2 : List (EState σ α)) (seen2 : List Int),
      SeenInv p (fun q => (↑q : Multiset (EState σ α))) q2 seen2 tr2 →
      ((tr2.reverse).map fun es => p.hash es.st).Nodup := by
    intro tr2 q2 seen2 hinv
    rw [List.map_reverse, List.nodup_reverse, ← Multiset.coe_nodup]
    exact Multiset.nodup_of_le (le_add_right (le_refl _)) hinv.1
  intro fuel
  induction fuel with
  | zero =>
    intro k q seen tr best bestv hinv
    exact trNodup tr q seen hinv
  | succ fuel ih =>
    intro k q seen tr best bestv hinv
    by_cases hsz : q.length = 0
    · rw [greedyAux_empty hsz]
      exact trNodup tr q seen hinv
    · by_cases htime : timeout < ((times k - start : ℤ) : WithTop ℤ)
      · rw [greedyAux_timeout hsz htime]
        exact trNodup tr q seen hinv
      · cases hpop : (greedyPol p).pop q with
        | none =>
          have hsome := ok.popSome q trivial hsz
          rw [hpop] at hsome
          exact absurd hsome (by simp)
        | some pr =>
          obtain ⟨cur, q2⟩ := pr
          obtain ⟨-, hinv2⟩ := pop_inv ok trivial hpop hinv
          by_cases hlt : bestv < p.value cur.st
          · rw [greedyAux_break hsz htime hpop hlt]
            exact trNodup (cur :: tr) q2 seen hinv2
          · rw [greedyAux_next hsz htime hpop hlt]
            exact ih (k + 1) _ _ (cur :: tr) cur (p.value cur.st)
              (pushList_inv ok _ _ _ _ trivial hinv2)

lemma greedySolve_nodup [DecidableEq σ] [DecidableEq α] (p : SProb σ α)
    (initOv : Option σ) (timeout : WithTop ℤ) (times : Nat → ℤ) (start : ℤ)
    (fuel : Nat) :
    (((greedySolve p initOv timeout times start fuel).trace).map
      fun es => p.hash es.st).Nodup := by
  unfold greedySolve
  obtain ⟨-, hinv⟩ := genericSolve_start_inv (greedyOK p)
    (⟨initOv.getD p.initialState, []⟩ : EState σ α)
  exact greedyAux_nodup p timeout times start fuel 0 _ _ [] _ _ hinv

lemma greedyAux_no_timeoutErr (p : SProb σ α) (timeout : WithTop ℤ)
    (times : Nat → ℤ) (start : ℤ) :
    ∀ (fuel k : Nat) (q : List (EState σ α)) (seen : List Int)
      (tr : List (EState σ α)) (best : EState σ α) (bestv : ℤ),
      (greedyAux p timeout times start fuel k q seen tr best bestv).out ≠
        .timeoutErr := by
  intro fuel
  induction fuel with
  | zero =>
    intro k q seen tr best bestv
    exact fun h => nomatch h
  | succ fuel ih =>
    intro k q seen tr best bestv
    by_cases hsz : q.length = 0
    · rw [greedyAux_empty hsz]; exact fun h => nomatch h
    · by_cases htime : timeout < ((times k - start : ℤ) : WithTop ℤ)
      · rw [greedyAux_timeout hsz htime]; exact fun h => nomatch h
      · cases hpop : (greedyPol p).pop q with
        | none =>
          rw [greedyAux_succ, if_neg hsz, if_neg htime, hpop]
          exact fun h => nomatch h
        | some pr =>
          obtain ⟨cur, q2⟩ := pr
          by_cases hlt : bestv < p.value cur.st
          · rw [greedyAux_break hsz htime hpop hlt]; exact fun h => nomatch h
          · rw [greedyAux_next hsz htime hpop hlt]
            exact ih (k + 1) _ _ (cur :: tr) cur (p.value cur.st)

/-! ## Claim C7: seen-set deduplication -/

/-- Claim C7 (confirmed): within a single `solve` call of any of the four
non-anytime strategies, no two popped-and-expanded states share an
identity hash: every identity is expanded at most once.  For
`BestFirstSearch` this holds whatever `value_states_dict` holds at entry
(`dict0`), i.e. also on a reused engine instance. -/
theorem claim_C7 {σ α : Type} [DecidableEq σ] [DecidableEq α] (p : SProb σ α)
    (h : σ → ℤ) (initOv : Option σ) (timeout : WithTop ℤ) (times : Nat → ℤ)
    (start : ℤ) (fuel : Nat) :
    (((bfsSolve p initOv timeout times start fuel).trace).map
      fun es => p.hash es.st).Nodup ∧
    (((dfsSolve p initOv timeout times start fuel).trace).map
      fun es => p.hash es.st).Nodup ∧
    (∀ dict0, (((bestSolve p h dict0 initOv timeout times start fuel).trace).map
      fun es => p.hash es.st).Nodup) ∧
    (((greedySolve p initOv timeout times start fuel).trace).map
      fun es => p.hash es.st).Nodup := by
  unfold bfsSolve dfsSolve bestSolve
  exact ⟨genericSolve_nodup (bfsOK p) _ _ _ _ _,
    genericSolve_nodup (dfsOK p) _ _ _ _ _,
    fun dict0 => genericSolve_nodup (bestOK p h dict0) _ _ _ _ _,
    greedySolve_nodup p _ _ _ _ _⟩

/-! ## Claim C10: state identity is hash identity -/

/-- Claim C10 (confirmed): for `State`s of the same concrete class,
equality is exactly hash equality (and is false across classes); as a
consequence, in every solve call two distinct popped states never share a
hash — a state whose hash collides with an already-expanded one is treated
as seen and never expanded. -/
theorem claim_C10 :
    (∀ a b : PyState, a.cls = b.cls → (pyStateEq a b = true ↔ a.hsh = b.hsh)) ∧
    (∀ a b : PyState, a.cls ≠ b.cls → pyStateEq a b = false) ∧
    (∀ (σ α : Type) (deqs : DecidableEq σ) (deqa : DecidableEq α) (p : SProb σ α)
      (h : σ → ℤ) (initOv : Option σ) (timeout : WithTop ℤ) (times : Nat → ℤ)
      (start : ℤ) (fuel : Nat) (dict0 : List (ℤ × List (EState σ α))),
      (∀ es1 ∈ (bfsSolve p initOv timeout times start fuel).trace,
        ∀ es2 ∈ (bfsSolve p initOv timeout times start fuel).trace,
          p.hash es1.st = p.hash es2.st → es1 = es2) ∧
      (∀ es1 ∈ (dfsSolve p initOv timeout times start fuel).trace,
        ∀ es2 ∈ (dfsSolve p initOv timeout times start fuel).trace,
          p.hash es1.st = p.hash es2.st → es1 = es2) ∧
      (∀ es1 ∈ (bestSolve p h dict0 initOv timeout times start fuel).trace,
        ∀ es2 ∈ (bestSolve p h dict0 initOv timeout times start fuel).trace,
          p.hash es1.st = p.hash es2.st → es1 = es2) ∧
      (∀ es1 ∈ (greedySolve p initOv timeout times start fuel).trace,
        ∀ es2 ∈ (greedySolve p initOv timeout times start fuel).trace,
          p.hash es1.st = p.hash es2.st → es1 = es2)) := by
  refine ⟨?_, ?_, ?_⟩
  · intro a b hcls
    unfold pyStateEq
    constructor
    · intro hh
      have := (Bool.and_eq_true _ _).mp hh
      exact eq_of_beq this.2
    · intro hh
      rw [hcls, hh]
      simp
  · intro a b hcls
    unfold pyStateEq
    rw [Bool.and_eq_false_iff]
    left
    exact beq_eq_false_iff_ne.mpr hcls
  · intro σ α deqs deqa p h initOv timeout times start fuel dict0
    refine ⟨?_, ?_, ?_, ?_⟩
    · exact fun es1 h1 es2 h2 heq =>
        List.inj_on_of_nodup_map
          (genericSolve_nodup (bfsOK p) initOv timeout times start fuel) h1 h2 heq
    · exact fun es1 h1 es2 h2 heq =>
        List.inj_on_of_nodup_map
          (genericSolve_nodup (dfsOK p) initOv timeout times start fuel) h1 h2 heq
    · exact fun es1 h1 es2 h2 heq =>
        List.inj_on_of_nodup_map
          (genericSolve_nodup (bestOK p h dict0) initOv timeout times start fuel)
          h1 h2 heq
    · exact fun es1 h1 es2 h2 heq =>
        List.inj_on_of_nodup_map
          (greedySolve_nodup p initOv timeout times start fuel) h1 h2 heq

/-- Witness for C10: two states of the same class are equal exactly when
their hashes agree, at a concrete input. -/
theorem claim_C10_witness :
    pyStateEq ⟨0, 5⟩ ⟨0, 5⟩ = true ∧ pyStateEq ⟨0, 5⟩ ⟨0, 7⟩ = false := by
  constructor
  · exact (claim_C10.1 ⟨0, 5⟩ ⟨0, 5⟩ rfl).mpr rfl
  · have := claim_C10.1 ⟨0, 5⟩ ⟨0, 7⟩ rfl
    cases hh : pyStateEq ⟨0, 5⟩ ⟨0, 7⟩ with
    | false => rfl
    | true => exact absurd (this.mp hh) (by decide)

/-! ## Claim C2: the shared traversal loop -/

/-- Claim C2, counterexample: on a problem whose initial state has no
successors and is not a goal, `GreedySearch.solve` returns the initial
state (its best-so-far), while the shared `Search.solve` loop with
Greedy's push/pop returns `None`; the two are not equivalent. -/
theorem claim_C2_counterexample :
    (greedySolve noActProb none ⊤ (fun _ => 0) 0 5).out =
      .ret (some ⟨0, []⟩) ∧
    (genericSolve noActProb (greedyPol noActProb) none ⊤ (fun _ => 0) 0 5).out =
      .ret none ∧
    (greedySolve noActProb none ⊤ (fun _ => 0) 0 5).out ≠
      (genericSolve noActProb (greedyPol noActProb) none ⊤ (fun _ => 0) 0 5).out := by
  refine ⟨?_, ?_, ?_⟩ <;> decide

/-- Claim C2, amended: `BreadthFirstSearch`, `DepthFirstSearch` and
`BestFirstSearch` run the shared `Search.solve` loop, differing only in
the frontier policy; `GreedySearch` overrides `solve` with a different
loop that never raises `TimeoutError` (it breaks and returns its
best-so-far state) and is not equivalent to the shared loop with Greedy's
push/pop substituted. -/
theorem claim_C2_amended :
    (∀ (σ α : Type) (p : SProb σ α) (h : σ → ℤ)
      (dict0 : List (ℤ × List (EState σ α))) (initOv : Option σ)
      (timeout : WithTop ℤ) (times : Nat → ℤ) (start : ℤ) (fuel : Nat),
      bfsSolve p initOv timeout times start fuel =
        genericSolve p (bfsPol σ α) initOv timeout times start fuel ∧
      dfsSolve p initOv timeout times start fuel =
        genericSolve p (dfsPol σ α) initOv timeout times start fuel ∧
      bestSolve p h dict0 initOv timeout times start fuel =
        genericSolve p (bestPol p h dict0) initOv timeout times start fuel) ∧
    (∀ (σ α : Type) (p : SProb σ α) (initOv : Option σ) (timeout : WithTop ℤ)
      (times : Nat → ℤ) (start : ℤ) (fuel : Nat),
      (greedySolve p initOv timeout times start fuel).out ≠ .timeoutErr) ∧
    (greedySolve noActProb none ⊤ (fun _ => 0) 0 5).out ≠
      (genericSolve noActProb (greedyPol noActProb) none ⊤ (fun _ => 0) 0 5).out := by
  refine ⟨fun σ α p h dict0 initOv timeout times start fuel => ⟨rfl, rfl, rfl⟩,
    ?_, by decide⟩
  intro σ α p initOv timeout times start fuel
  unfold greedySolve
  exact greedyAux_no_timeoutErr p timeout times start fuel 0 _ _ [] _ _

/-! ## Claim C4: the return contract of `solve` -/

/-- Claim C4, counterexample: `GreedySearch` is a non-anytime strategy,
yet with the hard timeout elapsed and a non-empty frontier its `solve`
does not fail with `TimeoutError`: it breaks and returns its best-so-far
state.  (With `timeout = 5` and every clock reading `10`, the loop runs
with the initial state in the frontier and returns it.) -/
theorem claim_C4_counterexample :
    (greedySolve noActProb none ((5 : ℤ) : WithTop ℤ) (fun _ => 10) 0 5).out =
      .ret (some ⟨0, []⟩) ∧
    (greedySolve noActProb none ((5 : ℤ) : WithTop ℤ) (fun _ => 10) 0 5).out ≠
      .timeoutErr ∧
    (genericSolve noActProb (greedyPol noActProb) none ((5 : ℤ) : WithTop ℤ)
      (fun _ => 10) 0 5).out = .timeoutErr := by
  refine ⟨?_, ?_, ?_⟩ <;> decide

/-- Claim C4, amended: for the three strategies that inherit
`Search.solve` (`BreadthFirstSearch`, `DepthFirstSearch`,
`BestFirstSearch` — the latter from any `value_states_dict` content),
every solve call satisfies the return contract: no stuck pop, `None`
exactly when the frontier emptied, `TimeoutError` only with a non-empty
frontier, and otherwise a popped state on which `is_solution` holds.
`GreedySearch`, which overrides `solve`, does not obey this contract. -/
theorem claim_C4_amended {σ α : Type} [DecidableEq σ] [DecidableEq α]
    (p : SProb σ α) (h : σ → ℤ) (dict0 : List (ℤ × List (EState σ α)))
    (initOv : Option σ) (timeout : WithTop ℤ) (times : Nat → ℤ) (start : ℤ)
    (fuel : Nat) :
    SolveContract p (bfsPol σ α) (bfsSolve p initOv timeout times start fuel) ∧
    SolveContract p (dfsPol σ α) (dfsSolve p initOv timeout times start fuel) ∧
    SolveContract p (bestPol p h dict0)
      (bestSolve p h dict0 initOv timeout times start fuel) := by
  unfold bfsSolve dfsSolve bestSolve
  exact ⟨genericSolve_contract (bfsOK p) _ _ _ _ _,
    genericSolve_contract (dfsOK p) _ _ _ _ _,
    genericSolve_contract (bestOK p h dict0) _ _ _ _ _⟩

/-! ## Claim C9: per-invocation ownership of the frontier -/

/-- Claim C9, counterexample.  On `twoPathProb`, a first solve on a fresh
`BestFirstSearch` instance returns the goal but leaves the key `1` mapped
to a non-empty stack in `value_states_dict`.  A second solve on the same
instance (same problem, same arguments) then returns `None` instead of
the goal: its pushes under key `1` land in the orphaned stack, which the
fresh heap never reaches.  A freshly constructed engine returns the goal. -/
theorem claim_C9_counterexample :
    (bestSolve twoPathProb (fun _ => 0) [] none ⊤ (fun _ => 0) 0 5).out =
      .ret (some ⟨2, [2]⟩) ∧
    ((bestSolve twoPathProb (fun _ => 0) [] none ⊤ (fun _ => 0) 0 5).finalQ).dict =
      [(1, [⟨1, [1]⟩])] ∧
    (bestSolve twoPathProb (fun _ => 0) [(1, [⟨1, [1]⟩])] none ⊤ (fun _ => 0) 0 5).out =
      .ret none ∧
    (bestSolve twoPathProb (fun _ => 0) [(1, [⟨1, [1]⟩])] none ⊤ (fun _ => 0) 0 5).out ≠
      (bestSolve twoPathProb (fun _ => 0) [] none ⊤ (fun _ => 0) 0 5).out := by
  refine ⟨?_, ?_, ?_, ?_⟩ <;> decide

/-- Claim C9, amended: the heap and the seen set are created fresh per
solve invocation, but `BestFirstSearch.value_states_dict` is instance
state that survives the call.  A push whose `f` key is orphaned (still in
the dict, no longer in the heap) appends the state to the orphaned stack
and leaves the reachable frontier contents unchanged — the pushed state is
lost, so a second solve on the same instance need not behave like a fresh
engine.  For the frontiers of `BreadthFirstSearch`, `DepthFirstSearch`
and `GreedySearch` no state survives the call: `create_queue` is the whole
frontier state. -/
theorem claim_C9_amended {σ α : Type} [DecidableEq σ] [DecidableEq α] :
    (∀ (q : BFQueue σ α) (f : ℤ) (stack : List (EState σ α)) (es : EState σ α),
      dictFind q.dict f = some stack → f ∉ q.heap →
        (bfPushF q f es).heap = q.heap ∧
        bfContents (bfPushF q f es) = bfContents q ∧
        dictFind (bfPushF q f es).dict f = some (es :: stack)) ∧
    (∀ (p : SProb σ α), (bfsPol σ α).create = [] ∧ (dfsPol σ α).create = [] ∧
      (greedyPol p).create = []) := by
  exact ⟨fun q f stack es hs hf => bfContents_push_orphan hs hf es,
    fun p => ⟨rfl, rfl, rfl⟩⟩

/-- Witness for the amended C9: a concrete orphaned push (key `1` in the
dict, heap empty) loses the pushed state. -/
theorem claim_C9_amended_witness :
    (bfPushF (⟨[], [(1, [⟨1, [1]⟩])]⟩ : BFQueue Int Int) 1 ⟨7, []⟩).heap = [] ∧
    bfContents (bfPushF (⟨[], [(1, [⟨1, [1]⟩])]⟩ : BFQueue Int Int) 1 ⟨7, []⟩) =
      bfContents (⟨[], [(1, [⟨1, [1]⟩])]⟩ : BFQueue Int Int) ∧
    dictFind (bfPushF (⟨[], [(1, [⟨1, [1]⟩])]⟩ : BFQueue Int Int) 1 ⟨7, []⟩).dict 1 =
      some [⟨7, []⟩, ⟨1, [1]⟩] := by
  have := claim_C9_amended.1 (⟨[], [(1, [⟨1, [1]⟩])]⟩ : BFQueue Int Int) 1
    [⟨1, [1]⟩] ⟨7, []⟩ (by decide) (by decide)
  exact this

/-! ## `IterativeDepthFirstSearch.run`: one probe step (claim C1) -/

lemma bfPushF_noOrphans {σ α : Type} {q : BFQueue σ α} (hwf : BFWF q)
    (hno : NoOrphans q) (f : ℤ) (es : EState σ α) :
    NoOrphans (bfPushF q f es) := by
  intro g s hg
  cases hd : dictFind q.dict f with
  | some stack =>
    have hpush : bfPushF q f es = ⟨q.heap, dictSet q.dict f (es :: stack)⟩ := by
      unfold bfPushF
      rw [hd]
    rw [hpush] at hg ⊢
    by_cases hgf : g = f
    · subst hgf
      exact hno g stack hd
    · rw [dictFind_dictSet_ne _ _ _ _ hgf] at hg
      exact hno g s hg
  | none =>
    have hpush : bfPushF q f es = ⟨q.heap.orderedInsert (· ≤ ·) f, (f, [es]) :: q.dict⟩ := by
      unfold bfPushF
      rw [hd]
    rw [hpush] at hg ⊢
    by_cases hgf : g = f
    · subst hgf
      exact (List.mem_orderedInsert _).mpr (Or.inl rfl)
    · have hg2 : dictFind q.dict g = some s := by
        have : dictFind ((f, [es]) :: q.dict) g =
            (if f = g then some [es] else dictFind q.dict g) := rfl
        rw [this, if_neg (fun hh => hgf hh.symm)] at hg
        exact hg
      exact (List.mem_orderedInsert _).mpr (Or.inr (hno g s hg2))

lemma bfPushF_contents_add {σ α : Type} {q : BFQueue σ α} (hwf : BFWF q)
    (hno : NoOrphans q) (f : ℤ) (es : EState σ α) :
    bfContents (bfPushF q f es) = bfContents q + {es} := by
  cases hd : dictFind q.dict f with
  | some stack => exact bfContents_push_mem hwf hd (hno f stack hd) es
  | none => exact bfContents_push_new hwf hd es

lemma pushRun_seen {σ α : Type} (p : SProb σ α) (h : σ → ℤ) :
    ∀ (l : List (EState σ α)) (q : BFQueue σ α) (seen : List Int),
      (pushRun p h q seen l).2 = (l.map fun es => p.hash es.st).reverse ++ seen
  | [], q, seen => rfl
  | s :: rest, q, seen => by
    show (pushRun p h (bfPushF q (p.value s.st + h s.st) s) (p.hash s.st :: seen) rest).2 =
      ((s :: rest).map fun es => p.hash es.st).reverse ++ seen
    rw [pushRun_seen p h rest _ (p.hash s.st :: seen), List.map_cons, List.reverse_cons,
      List.append_assoc]
    rfl

lemma pushRun_wf {σ α : Type} (p : SProb σ α) (h : σ → ℤ) :
    ∀ (l : List (EState σ α)) (q : BFQueue σ α) (seen : List Int),
      BFWF q → BFWF (pushRun p h q seen l).1
  | [], q, seen, hwf => hwf
  | s :: rest, q, seen, hwf =>
    pushRun_wf p h rest _ _ (BFWF_push hwf _ s)

lemma pushRun_contents {σ α : Type} (p : SProb σ α) (h : σ → ℤ) :
    ∀ (l : List (EState σ α)) (q : BFQueue σ α) (seen : List Int),
      BFWF q → NoOrphans q →
      bfContents (pushRun p h q seen l).1 = bfContents q + ↑l
  | [], q, seen, _, _ => by
    show bfContents q = bfContents q + ↑([] : List (EState σ α))
    rw [Multiset.coe_nil, add_zero]
  | s :: rest, q, seen, hwf, hno => by
    show bfContents
      (pushRun p h (bfPushF q (p.value s.st + h s.st) s) (p.hash s.st :: seen) rest).1 =
      bfContents q + ↑(s :: rest)
    rw [pushRun_contents p h rest _ _ (BFWF_push hwf _ s)
        (bfPushF_noOrphans hwf hno _ s),
      bfPushF_contents_add hwf hno _ s, ← Multiset.cons_coe, ← Multiset.singleton_add,
      ← add_assoc]

/-- One unfolding of the `while True` loop of `run`. -/
lemma runAux_succ (p : SProb σ α) (h : σ → ℤ) (timeout : WithTop ℤ) (times : Nat → ℤ)
    (start : ℤ) (fuel k : Nat) (cur : EState σ α) (q : BFQueue σ α) (seen : List Int) :
    runAux p h timeout times start (fuel + 1) k cur q seen =
      (if timeout < ((times k - start : ℤ) : WithTop ℤ) then some ⟨none, q, seen, k + 1⟩
      else if p.isSolution cur.st then some ⟨some cur, q, seen, k + 1⟩
      else
        match (runDedup p ((branch p cur).filter fun x =>
            decide (p.hash x.st ∉ seen)) []).reverse with
        | [] => some ⟨none, q, seen, k + 1⟩
        | c :: rest =>
          runAux p h timeout times start fuel (k + 1) c
            (pushRun p h q seen rest).1 (pushRun p h q seen rest).2) := rfl

/-- Claim C1, amended (the probe step of `run`): after branching, filtering
out already-seen successors and deduplicating the rest against each other,
if no successor remains the run is a dead end (`None`, queue and seen set
untouched); if some remain, the run descends into the successor that comes
*last* in branching order (`sort_states` is a no-op, the deduplicated list
is reversed and its head taken), and pushes all the other remaining
successors — with their `f = g + h` keys — onto the outer frontier, adding
their identities to the outer seen set. -/
theorem claim_C1_amended {σ α : Type} [DecidableEq σ] [DecidableEq α]
    (p : SProb σ α) (h : σ → ℤ) (timeout : WithTop ℤ) (times : Nat → ℤ) (start : ℤ)
    (fuel k : Nat) (cur : EState σ α) (q : BFQueue σ α) (seen : List Int)
    (ht : ¬ timeout < ((times k - start : ℤ) : WithTop ℤ))
    (hsol : ¬ p.isSolution cur.st = true) :
    (runDedup p ((branch p cur).filter fun x => decide (p.hash x.st ∉ seen)) [] = [] →
      runAux p h timeout times start (fuel + 1) k cur q seen =
        some ⟨none, q, seen, k + 1⟩) ∧
    (∀ c rest,
      (runDedup p ((branch p cur).filter fun x =>
          decide (p.hash x.st ∉ seen)) []).reverse = c :: rest →
      (runDedup p ((branch p cur).filter fun x =>
          decide (p.hash x.st ∉ seen)) []).getLast? = some c ∧
      runAux p h timeout times start (fuel + 1) k cur q seen =
        runAux p h timeout times start fuel (k + 1) c
          (pushRun p h q seen rest).1 (pushRun p h q seen rest).2 ∧
      (pushRun p h q seen rest).2 = (rest.map fun es => p.hash es.st).reverse ++ seen ∧
      (BFWF q → NoOrphans q →
        bfContents (pushRun p h q seen rest).1 = bfContents q + ↑rest)) := by
  constructor
  · intro hns
    rw [runAux_succ, if_neg ht, if_neg hsol, hns, List.reverse_nil]
  · intro c rest hrev
    refine ⟨?_, ?_, pushRun_seen p h rest q seen,
      fun hwf hno => pushRun_contents p h rest q seen hwf hno⟩
    · rw [← List.head?_reverse, hrev]
      rfl
    · rw [runAux_succ, if_neg ht, if_neg hsol, hrev]

/-- Claim C1, counterexample: in `runProb`, the non-goal state `0` branches
to the fresh successors `1` (with `f = g + h = 0`) and `2` (with `f = 5`, a
goal).  The claim says the run descends into the lowest-`f` successor,
i.e. `1` (a dead end, so the run would return `None`); the code descends
into `2` — the last in branching order, `sort_states` being a no-op — and
returns it, pushing `1` (key `0`) onto the outer frontier and marking it
seen. -/
theorem claim_C1_counterexample :
    idfsRun runProb (fun _ => 0) ⊤ (fun _ => 0) 5 0 ⟨0, []⟩ ⟨[], []⟩ [0] =
      some ⟨some ⟨2, [2]⟩, ⟨[0], [(0, [⟨1, [1]⟩])]⟩, [1, 0], 3⟩ ∧
    runProb.value 1 + 0 < runProb.value 2 + 0 ∧
    runProb.hash 1 ∉ [(0 : Int)] ∧ runProb.hash 2 ∉ [(0 : Int)] ∧
    runProb.isSolution 0 = false := by
  refine ⟨?_, ?_, ?_, ?_, ?_⟩ <;> decide

/-- Witness for the amended C1: at the concrete configuration of
`runProb`, the probe step descends into state `2` — the last accepted
successor — and pushes the sibling `1`. -/
theorem claim_C1_amended_witness :
    (runDedup runProb ((branch runProb ⟨0, []⟩).filter fun x =>
        decide (runProb.hash x.st ∉ [(0 : Int)])) []).getLast? = some ⟨2, [2]⟩ ∧
    runAux runProb (fun _ => 0) ⊤ (fun _ => 0) 0 (4 + 1) 1 ⟨0, []⟩ ⟨[], []⟩ [0] =
      runAux runProb (fun _ => 0) ⊤ (fun _ => 0) 0 4 2 ⟨2, [2]⟩
        (pushRun runProb (fun _ => 0) ⟨[], []⟩ [0] [⟨1, [1]⟩]).1
        (pushRun runProb (fun _ => 0) ⟨[], []⟩ [0] [⟨1, [1]⟩]).2 := by
  have hmain := claim_C1_amended runProb (fun _ => 0) ⊤ (fun _ => 0) 0 4 1 ⟨0, []⟩
    ⟨[], []⟩ [0] (by decide) (by decide)
  obtain ⟨hlast, heq, -, -⟩ := hmain.2 ⟨2, [2]⟩ [⟨1, [1]⟩] (by decide)
  exact ⟨hlast, heq⟩

/-! ## `IterativeDepthFirstSearch.solve`: timeout handling (claim C5) -/

/-- One unfolding of the outer loop of `IterativeDepthFirstSearch.solve`. -/
lemma idfsAux_succ (p : SProb σ α) (h : σ → ℤ) (timeout soft : WithTop ℤ)
    (times : Nat → ℤ) (start : ℤ) (runFuel fuel k : Nat) (q : BFQueue σ α)
    (seen : List Int) (best : Option (EState σ α × ℤ)) :
    idfsAux p h timeout soft times start runFuel (fuel + 1) k q seen best =
      (if q.heap.length = 0 then ⟨.ret (best.map Prod.fst), q, seen, k⟩
      else
        match bfPop q with
        | none => ⟨.stuck, q, seen, k⟩
        | some ((v, es), q2) =>
          if idfsPrune v best then ⟨.ret (best.map Prod.fst), q2, seen, k⟩
          else
            if best.isSome && decide (soft < ((times k - start : ℤ) : WithTop ℤ)) then
              ⟨.ret (best.map Prod.fst), q2, seen, k + 1⟩
            else if timeout < ((times k - start : ℤ) : WithTop ℤ) then
              ⟨.timeoutErr, q2, seen, k + 1⟩
            else
              match idfsRun p h (timeSub timeout (times k - start)) times runFuel
                  (k + 1) es q2 seen with
              | none => ⟨.fuelOut, q2, seen, k + 1⟩
              | some rr =>
                idfsAux p h timeout soft times start runFuel fuel rr.k rr.q rr.seen
                  (match rr.sol with
                  | none => best
                  | some s =>
                    if idfsBetter (p.value s.st) best || best.isNone then
                      some (s, p.value s.st)
                    else best)) := rfl

/-- Claim C5 (confirmed): in an outer iteration of
`IterativeDepthFirstSearch.solve` that reaches the clock check (the popped
key does not prune), if an incumbent `best_solution` exists and the soft
timeout is exceeded, `solve` returns the incumbent rather than failing;
if no incumbent exists and the hard timeout is exceeded — in particular
when no run has completed yet — `solve` raises `TimeoutError`. -/
theorem claim_C5 {σ α : Type} (p : SProb σ α) (h : σ → ℤ) (timeout soft : WithTop ℤ)
    (times : Nat → ℤ) (start : ℤ) (runFuel fuel k : Nat) (q q2 : BFQueue σ α)
    (seen : List Int) (best : Option (EState σ α × ℤ)) (v : ℤ) (es : EState σ α)
    (hpop : bfPop q = some ((v, es), q2))
    (hprune : idfsPrune v best = false) :
    (∀ b bv, best = some (b, bv) → soft < ((times k - start : ℤ) : WithTop ℤ) →
      idfsAux p h timeout soft times start runFuel (fuel + 1) k q seen best =
        ⟨.ret (some b), q2, seen, k + 1⟩) ∧
    (best = none → timeout < ((times k - start : ℤ) : WithTop ℤ) →
      idfsAux p h timeout soft times start runFuel (fuel + 1) k q seen best =
        ⟨.timeoutErr, q2, seen, k + 1⟩) := by
  have hsz : ¬ q.heap.length = 0 := by
    obtain ⟨heapRest, stackRest, hheap, -, -⟩ := bfPop_eq_some hpop
    rw [hheap]
    simp
  have hpr : ¬ idfsPrune v best = true := by
    rw [hprune]
    exact fun hh => nomatch hh
  constructor
  · intro b bv hbest hsoft
    subst hbest
    rw [idfsAux_succ, if_neg hsz, hpop]
    show (if idfsPrune v (some (b, bv)) = true then _ else _) = _
    rw [if_neg hpr]
    show (if ((some (b, bv)).isSome &&
        decide (soft < ((times k - start : ℤ) : WithTop ℤ))) = true then
        (⟨.ret ((some (b, bv)).map Prod.fst), q2, seen, k + 1⟩ : IdfsRes σ α)
      else _) = _
    rw [if_pos]
    · rfl
    · show ((some (b, bv)).isSome &&
        decide (soft < ((times k - start : ℤ) : WithTop ℤ))) = true
      rw [Option.isSome_some, Bool.true_and, decide_eq_true_eq]
      exact hsoft
  · intro hbest htime
    subst hbest
    rw [idfsAux_succ, if_neg hsz, hpop]
    show (if idfsPrune v none = true then _ else _) = _
    rw [if_neg hpr]
    show (if ((none : Option (EState σ α × ℤ)).isSome &&
        decide (soft < ((times k - start : ℤ) : WithTop ℤ))) = true then _
      else if timeout < ((times k - start : ℤ) : WithTop ℤ) then
        (⟨.timeoutErr, q2, seen, k + 1⟩ : IdfsRes σ α)
      else _) = _
    rw [if_neg (by rw [Option.isSome_none, Bool.false_and]; exact fun hh => nomatch hh),
      if_pos htime]

/-- Witness for C5: a concrete frontier with one entry, clock reading 100.
With an incumbent and soft timeout 50, the loop returns the incumbent;
with no incumbent and hard timeout 60, it raises. -/
theorem claim_C5_witness :
    idfsAux noActProb (fun _ => 0) ((60 : ℤ) : WithTop ℤ) ((50 : ℤ) : WithTop ℤ)
      (fun _ => 100) 0 3 4 0 ⟨[1], [(1, [⟨5, []⟩])]⟩ []
      (some (⟨9, []⟩, 2)) =
      ⟨.ret (some ⟨9, []⟩), ⟨[], []⟩, [], 1⟩ ∧
    idfsAux noActProb (fun _ => 0) ((60 : ℤ) : WithTop ℤ) ((50 : ℤ) : WithTop ℤ)
      (fun _ => 100) 0 3 4 0 ⟨[1], [(1, [⟨5, []⟩])]⟩ [] none =
      ⟨.timeoutErr, ⟨[], []⟩, [], 1⟩ := by
  constructor
  · exact (claim_C5 noActProb (fun _ => 0) _ _ (fun _ => 100) 0 3 3 0 _ ⟨[], []⟩ []
      (some (⟨9, []⟩, 2)) 1 ⟨5, []⟩ (by decide) (by decide)).1 ⟨9, []⟩ 2 rfl (by decide)
  · exact (claim_C5 noActProb (fun _ => 0) _ _ (fun _ => 100) 0 3 3 0 _ ⟨[], []⟩ []
      none 1 ⟨5, []⟩ (by decide) (by decide)).2 rfl (by decide)

/-! ## Claim C6: breadth-first search finds a shortest path -/

lemma reachIn_last {σ α : Type} (p : SProb σ α) :
    ∀ (k : Nat) (s t : σ), ReachIn p (k + 1) s t →
      ∃ u, ReachIn p k s u ∧ t ∈ succs p u := by
  intro k
  induction k with
  | zero =>
    intro s t h
    obtain ⟨u, hu, ht⟩ := h
    refine ⟨s, rfl, ?_⟩
    show t ∈ succs p s
    rw [show t = u from ht]
    exact hu
  | succ k ih =>
    intro s t h
    obtain ⟨v, hv, hrest⟩ := h
    obtain ⟨u, hu, ht⟩ := ih v t hrest
    exact ⟨u, ⟨v, hv, hu⟩, ht⟩

lemma isPath_reachIn {σ α : Type} (p : SProb σ α) :
    ∀ (l : List α) (s t : σ), IsPath p s l t → ReachIn p l.length s t
  | [], _, _, h => h
  | a :: rest, s, t, h => by
    obtain ⟨ha, hrest⟩ := h
    exact ⟨p.applyAction a s, List.mem_map_of_mem _ ha,
      isPath_reachIn p rest _ t hrest⟩

lemma isPath_extend {σ α : Type} (p : SProb σ α) :
    ∀ (l : List α) (s t : σ), IsPath p s l t → ∀ a ∈ p.actions t,
      IsPath p s (l ++ [a]) (p.applyAction a t)
  | [], s, t, h, a, ha => by
    obtain rfl : t = s := h
    exact ⟨ha, rfl⟩
  | b :: rest, s, t, h, a, ha => by
    obtain ⟨hb, hrest⟩ := h
    exact ⟨hb, isPath_extend p rest _ t hrest a ha⟩

/-- What the `push_if_new` loop does to a FIFO frontier: it appends, in
order, exactly those branched states that were fresh when examined; their
identities join the seen set, and afterwards every branched state's
identity is in the seen set. -/
lemma pushList_bfs {σ α : Type} [DecidableEq σ] [DecidableEq α] (p : SProb σ α) :
    ∀ (l : List (EState σ α)) (q : List (EState σ α)) (seen : List Int),
      ∃ news : List (EState σ α),
        (pushList p (bfsPol σ α) q seen l).1 = q ++ news ∧
        (∀ n ∈ news, n ∈ l ∧ p.hash n.st ∉ seen) ∧
        (∀ h2, h2 ∈ (pushList p (bfsPol σ α) q seen l).2 ↔
          h2 ∈ seen ∨ ∃ n ∈ news, p.hash n.st = h2) ∧
        (∀ x ∈ l, p.hash x.st ∈ (pushList p (bfsPol σ α) q seen l).2)
  | [], q, seen => by
    refine ⟨[], by rw [List.append_nil]; rfl, by simp, ?_, by simp⟩
    intro h2
    show h2 ∈ seen ↔ _
    simp
  | es :: rest, q, seen => by
    have heq : pushList p (bfsPol σ α) q seen (es :: rest) =
        pushList p (bfsPol σ α) (pushIfNew p (bfsPol σ α) q seen es).1
          (pushIfNew p (bfsPol σ α) q seen es).2 rest := rfl
    by_cases hmem : p.hash es.st ∈ seen
    · have hpi : pushIfNew p (bfsPol σ α) q seen es = (q, seen) := by
        unfold pushIfNew
        rw [if_pos hmem]
      rw [heq, hpi]
      obtain ⟨news, h1, h2, h3, h4⟩ := pushList_bfs p rest q seen
      refine ⟨news, h1, ?_, h3, ?_⟩
      · intro n hn
        obtain ⟨hin, hnot⟩ := h2 n hn
        exact ⟨List.mem_cons_of_mem _ hin, hnot⟩
      · intro x hx
        rcases List.mem_cons.mp hx with rfl | hx2
        · exact (h3 _).mpr (Or.inl hmem)
        · exact h4 x hx2
    · have hpi : pushIfNew p (bfsPol σ α) q seen es =
          (q ++ [es], p.hash es.st :: seen) := by
        unfold pushIfNew
        rw [if_neg hmem]
        rfl
      rw [heq, hpi]
      obtain ⟨news, h1, h2, h3, h4⟩ :=
        pushList_bfs p rest (q ++ [es]) (p.hash es.st :: seen)
      refine ⟨es :: news, ?_, ?_, ?_, ?_⟩
      · rw [h1, List.append_assoc]
        rfl
      · intro n hn
        rcases List.mem_cons.mp hn with rfl | hn2
        · exact ⟨List.mem_cons_self _ _, hmem⟩
        · obtain ⟨hin, hnot⟩ := h2 n hn2
          exact ⟨List.mem_cons_of_mem _ hin,
            fun hh => hnot (List.mem_cons_of_mem _ hh)⟩
      · intro h2x
        rw [h3 h2x]
        constructor
        · rintro (hh | ⟨n, hn, hnh⟩)
          · rcases List.mem_cons.mp hh with rfl | hh2
            · exact Or.inr ⟨es, List.mem_cons_self _ _, rfl⟩
            · exact Or.inl hh2
          · exact Or.inr ⟨n, List.mem_cons_of_mem _ hn, hnh⟩
        · rintro (hh | ⟨n, hn, hnh⟩)
          · exact Or.inl (List.mem_cons_of_mem _ hh)
          · rcases List.mem_cons.mp hn with rfl | hn2
            · exact Or.inl (by rw [← hnh]; exact List.mem_cons_self _ _)
            · exact Or.inr ⟨n, hn2, hnh⟩
      · intro x hx
        rcases List.mem_cons.mp hx with rfl | hx2
        · exact (h3 _).mpr (Or.inl (List.mem_cons_self _ _))
        · exact h4 x hx2

lemma sorted_const_nat (c : Nat) {l : List Nat} (h : ∀ x ∈ l, x = c) :
    List.Sorted (· ≤ ·) l := by
  induction l with
  | nil => exact List.sorted_nil
  | cons a t ih =>
    refine List.sorted_cons.mpr ⟨?_, ih fun x hx => h x (List.mem_cons_of_mem _ hx)⟩
    intro b hb
    rw [h a (List.mem_cons_self _ _), h b (List.mem_cons_of_mem _ hb)]

/-- Under the breadth-first invariant with an injective hash, every state
whose distance from the start is at most the front depth has already been
discovered. -/
lemma bfsInv_front_le_disc {σ α : Type} {p : SProb σ α}
    (hinj : Function.Injective p.hash) {hd : EState σ α}
    {tl : List (EState σ α)} {seen : List Int} {tr : List (EState σ α)}
    (inv : BfsInv p (hd :: tl) seen tr) :
    ∀ s j, ReachIn p j p.initialState s → j ≤ hd.hist.length →
      p.hash s ∈ seen := by
  intro s j hreach hle
  have hhd : hd ∈ (hd :: tl).head? := rfl
  rcases Nat.lt_or_ge j hd.hist.length with hlt | hge
  · exact inv.frontDisc hd hhd s j hreach hlt
  · have heq : j = hd.hist.length := le_antisymm hle hge
    cases j with
    | zero =>
      obtain rfl : s = p.initialState := hreach
      exact inv.initSeen
    | succ j0 =>
      obtain ⟨u, hu, hsu⟩ := reachIn_last p j0 _ s hreach
      have huseen : p.hash u ∈ seen :=
        inv.frontDisc hd hhd u j0 hu (by omega)
      obtain ⟨esu, hesu, hhash⟩ := (inv.seenIff _).mp huseen
      have hst : esu.st = u := hinj hhash
      have hdep : esu.hist.length ≤ j0 := by
        refine inv.depthMin esu hesu j0 ?_
        rw [hst]
        exact hu
      rcases List.mem_append.mp hesu with htr | hq
      · refine inv.trSuccSeen esu htr s ?_
        rw [hst]
        exact hsu
      · exfalso
        have hmin : hd.hist.length ≤ esu.hist.length := by
          rcases List.mem_cons.mp hq with rfl | hq2
          · exact le_refl _
          · exact (List.sorted_cons.mp inv.sorted).1 _ (List.mem_map_of_mem _ hq2)
        omega

/-- Expanding the non-goal front state of the breadth-first queue
preserves the invariant. -/
lemma bfsInv_step {σ α : Type} [DecidableEq σ] [DecidableEq α] {p : SProb σ α}
    (hinj : Function.Injective p.hash) {hd : EState σ α}
    {tl : List (EState σ α)} {seen : List Int} {tr : List (EState σ α)}
    (inv : BfsInv p (hd :: tl) seen tr) (hsol : p.isSolution hd.st = false) :
    BfsInv p (pushList p (bfsPol σ α) tl seen (branch p hd)).1
      (pushList p (bfsPol σ α) tl seen (branch p hd)).2 (hd :: tr) := by
  obtain ⟨news, h1, h2, h3, h4⟩ := pushList_bfs p (branch p hd) tl seen
  have hhd : hd ∈ (hd :: tl).head? := rfl
  have hmemOld : hd ∈ tr ++ (hd :: tl) :=
    List.mem_append_right _ (List.mem_cons_self _ _)
  have hpathhd : IsPath p p.initialState hd.hist hd.st := inv.path hd hmemOld
  have hbr : ∀ n ∈ news, ∃ a ∈ p.actions hd.st,
      n = ⟨p.applyAction a hd.st, hd.hist ++ [a]⟩ := by
    intro n hn
    have hin : n ∈ branch p hd := (h2 n hn).1
    obtain ⟨a, ha, hEq⟩ := List.mem_map.mp hin
    exact ⟨a, ha, hEq.symm⟩
  have hfresh : ∀ n ∈ news, p.hash n.st ∉ seen := fun n hn => (h2 n hn).2
  have hdepth : ∀ n ∈ news, n.hist.length = hd.hist.length + 1 := by
    intro n hn
    obtain ⟨a, ha, rfl⟩ := hbr n hn
    show (hd.hist ++ [a]).length = hd.hist.length + 1
    rw [List.length_append]
    rfl
  have hpathNew : ∀ n ∈ news, IsPath p p.initialState n.hist n.st := by
    intro n hn
    obtain ⟨a, ha, rfl⟩ := hbr n hn
    exact isPath_extend p hd.hist _ _ hpathhd a ha
  have hminNew : ∀ n ∈ news, ∀ j, ReachIn p j p.initialState n.st →
      n.hist.length ≤ j := by
    intro n hn j hreach
    by_contra hcon
    have hle : j ≤ hd.hist.length := by
      have := hdepth n hn
      omega
    exact hfresh n hn (bfsInv_front_le_disc hinj inv n.st j hreach hle)
  have hseen2 : ∀ h2x, h2x ∈ (pushList p (bfsPol σ α) tl seen (branch p hd)).2 ↔
      ∃ es ∈ (hd :: tr) ++ (tl ++ news), p.hash es.st = h2x := by
    intro h2x
    rw [h3 h2x]
    constructor
    · rintro (hh | ⟨n, hn, hnh⟩)
      · obtain ⟨es, hes, hesh⟩ := (inv.seenIff h2x).mp hh
        refine ⟨es, ?_, hesh⟩
        rcases List.mem_append.mp hes with h | h
        · exact List.mem_append_left _ (List.mem_cons_of_mem _ h)
        · rcases List.mem_cons.mp h with rfl | h
          · exact List.mem_append_left _ (List.mem_cons_self _ _)
          · exact List.mem_append_right _ (List.mem_append_left _ h)
      · exact ⟨n, List.mem_append_right _ (List.mem_append_right _ hn), hnh⟩
    · rintro ⟨es, hes, hesh⟩
      rcases List.mem_append.mp hes with h | h
      · rcases List.mem_cons.mp h with rfl | h
        · exact Or.inl ((inv.seenIff h2x).mpr ⟨es, hmemOld, hesh⟩)
        · exact Or.inl ((inv.seenIff h2x).mpr ⟨es, List.mem_append_left _ h, hesh⟩)
      · rcases List.mem_append.mp h with h | h
        · exact Or.inl ((inv.seenIff h2x).mpr
            ⟨es, List.mem_append_right _ (List.mem_cons_of_mem _ h), hesh⟩)
        · exact Or.inr ⟨es, h, hesh⟩
  have hmono : ∀ x ∈ seen, x ∈ (pushList p (bfsPol σ α) tl seen (branch p hd)).2 :=
    fun x hx => (h3 x).mpr (Or.inl hx)
  have hSS2 : ∀ es ∈ hd :: tr, ∀ t ∈ succs p es.st,
      p.hash t ∈ (pushList p (bfsPol σ α) tl seen (branch p hd)).2 := by
    intro es hes t ht
    rcases List.mem_cons.mp hes with rfl | hes2
    · obtain ⟨a, ha, hEq⟩ := List.mem_map.mp ht
      have hb : (⟨t, es.hist ++ [a]⟩ : EState σ α) ∈ branch p es := by
        rw [← hEq]
        exact List.mem_map_of_mem _ ha
      exact h4 _ hb
    · exact hmono _ (inv.trSuccSeen es hes2 t ht)
  rw [h1]
  refine ⟨?_, ?_, ?_, ?_, hseen2, ?_, ?_, hSS2, ?_, ?_⟩
  · intro es hes
    rcases List.mem_append.mp hes with h | h
    · rcases List.mem_cons.mp h with rfl | h
      · exact hpathhd
      · exact inv.path es (List.mem_append_left _ h)
    · rcases List.mem_append.mp h with h | h
      · exact inv.path es (List.mem_append_right _ (List.mem_cons_of_mem _ h))
      · exact hpathNew es h
  · intro es hes j hreach
    rcases List.mem_append.mp hes with h | h
    · rcases List.mem_cons.mp h with rfl | h
      · exact inv.depthMin es hmemOld j hreach
      · exact inv.depthMin es (List.mem_append_left _ h) j hreach
    · rcases List.mem_append.mp h with h | h
      · exact inv.depthMin es
          (List.mem_append_right _ (List.mem_cons_of_mem _ h)) j hreach
      · exact hminNew es h j hreach
  · show List.Pairwise (· ≤ ·) ((tl ++ news).map fun es => es.hist.length)
    rw [List.map_append]
    refine List.pairwise_append.mpr ⟨?_, ?_, ?_⟩
    · exact (List.sorted_cons.mp inv.sorted).2
    · refine sorted_const_nat (hd.hist.length + 1) fun x hx => ?_
      obtain ⟨n, hn, rfl⟩ := List.mem_map.mp hx
      exact hdepth n hn
    · intro x hx y hy
      obtain ⟨ex, hex, rfl⟩ := List.mem_map.mp hx
      obtain ⟨ny, hny, rfl⟩ := List.mem_map.mp hy
      have hx1 : ex.hist.length ≤ hd.hist.length + 1 :=
        inv.bounded ex (List.mem_cons_of_mem _ hex) hd hhd
      rw [hdepth ny hny]
      exact hx1
  · intro es hes hd2 hhd2
    have hesb : es.hist.length ≤ hd.hist.length + 1 := by
      rcases List.mem_append.mp hes with h | h
      · exact inv.bounded es (List.mem_cons_of_mem _ h) hd hhd
      · rw [hdepth es h]
    have hfr : hd.hist.length ≤ hd2.hist.length := by
      have hhd2m : hd2 ∈ tl ++ news := List.mem_of_mem_head? hhd2
      rcases List.mem_append.mp hhd2m with h | h
      · exact (List.sorted_cons.mp inv.sorted).1 _ (List.mem_map_of_mem _ h)
      · rw [hdepth hd2 h]
        omega
    omega
  · exact hmono _ inv.initSeen
  · intro es hes
    rcases List.mem_cons.mp hes with rfl | h
    · exact hsol
    · exact inv.trNoGoal es h
  · intro hd2 hhd2 s j hreach hlt
    have hhd2m : hd2 ∈ tl ++ news := List.mem_of_mem_head? hhd2
    have hb2 : hd2.hist.length ≤ hd.hist.length + 1 := by
      rcases List.mem_append.mp hhd2m with h | h
      · exact inv.bounded hd2 (List.mem_cons_of_mem _ h) hd hhd
      · rw [hdepth hd2 h]
    have hle : j ≤ hd.hist.length := by omega
    exact hmono _ (bfsInv_front_le_disc hinj inv s j hreach hle)
  · intro hemp s j
    induction j generalizing s with
    | zero =>
      intro hreach
      obtain rfl : s = p.initialState := hreach
      exact hmono _ inv.initSeen
    | succ j0 ih =>
      intro hreach
      obtain ⟨u, hu, hsu⟩ := reachIn_last p j0 _ s hreach
      have huseen := ih u hu
      obtain ⟨esu, hesu, hhash⟩ := (hseen2 _).mp huseen
      have hst : esu.st = u := hinj hhash
      have hesu2 : esu ∈ hd :: tr := by
        rcases List.mem_append.mp hesu with h | h
        · exact h
        · rw [hemp] at h
          exact absurd h (List.not_mem_nil _)
      refine hSS2 esu hesu2 s ?_
      rw [hst]
      exact hsu

/-- If the loop runs out of fuel it has performed exactly `fuel` pops. -/
lemma solveAux_fuelOut_length {σ α Q : Type} {p : SProb σ α} {pol : Policy σ α Q}
    {timeout : WithTop ℤ} {times : Nat → ℤ} {start : ℤ} :
    ∀ (fuel k : Nat) (q : Q) (seen : List Int) (tr : List (EState σ α)),
      (solveAux p pol timeout times start fuel k q seen tr).out = .fuelOut →
      (solveAux p pol timeout times start fuel k q seen tr).trace.length =
        tr.length + fuel := by
  intro fuel
  induction fuel with
  | zero =>
    intro k q seen tr _
    show tr.reverse.length = tr.length + 0
    rw [List.length_reverse, Nat.add_zero]
  | succ fuel ih =>
    intro k q seen tr hout
    by_cases hsz : pol.size q = 0
    · rw [solveAux_empty hsz] at hout
      simp at hout
    · by_cases htime : timeout < ((times k - start : ℤ) : WithTop ℤ)
      · rw [solveAux_timeout hsz htime] at hout
        simp at hout
      · cases hpop : pol.pop q with
        | none =>
          rw [solveAux_succ, if_neg hsz, if_neg htime, hpop] at hout
          simp at hout
        | some pr =>
          obtain ⟨es, q2⟩ := pr
          by_cases hsol : p.isSolution es.st = true
          · rw [solveAux_goal hsz htime hpop hsol] at hout
            simp at hout
          · rw [solveAux_next hsz htime hpop hsol] at hout
            rw [solveAux_next hsz htime hpop hsol,
              ih (k + 1) _ _ (es :: tr) hout, List.length_cons]
            omega

/-- From an invariant configuration with unlimited time, the breadth-first
loop either exhausts its fuel, returns a goal state whose recorded history
is a legal path of minimal length, or returns `None` and no reachable state
is a goal. -/
lemma bfs_main {σ α : Type} [DecidableEq σ] [DecidableEq α] {p : SProb σ α}
    (hinj : Function.Injective p.hash) (times : Nat → ℤ) (start : ℤ) :
    ∀ (fuel k : Nat) (q : List (EState σ α)) (seen : List Int)
      (tr : List (EState σ α)), BfsInv p q seen tr →
      (solveAux p (bfsPol σ α) ⊤ times start fuel k q seen tr).out = .fuelOut ∨
      (∃ es, (solveAux p (bfsPol σ α) ⊤ times start fuel k q seen tr).out =
          .ret (some es) ∧ p.isSolution es.st = true ∧
          IsPath p p.initialState es.hist es.st ∧
          (∀ j g, ReachIn p j p.initialState g → p.isSolution g = true →
            es.hist.length ≤ j)) ∨
      ((solveAux p (bfsPol σ α) ⊤ times start fuel k q seen tr).out =
          .ret none ∧
        ∀ j g, ReachIn p j p.initialState g → p.isSolution g = false) := by
  intro fuel
  induction fuel with
  | zero =>
    intro k q seen tr inv
    exact Or.inl rfl
  | succ fuel ih =>
    intro k q seen tr inv
    by_cases hsz : (bfsPol σ α).size q = 0
    · refine Or.inr (Or.inr ⟨?_, ?_⟩)
      · rw [solveAux_empty hsz]
      · have hq : q = [] := List.length_eq_zero.mp hsz
        intro j g hreach
        have hg := inv.emptyDisc hq g j hreach
        obtain ⟨es, hes, hesh⟩ := (inv.seenIff _).mp hg
        have hst : es.st = g := hinj hesh
        rw [hq, List.append_nil] at hes
        rw [← hst]
        exact inv.trNoGoal es hes
    · have htime : ¬ (⊤ : WithTop ℤ) < ((times k - start : ℤ) : WithTop ℤ) :=
        WithTop.not_top_lt _
      obtain ⟨hd, tl, rfl⟩ : ∃ hd tl, q = hd :: tl := by
        cases q with
        | nil => exact absurd rfl hsz
        | cons hd tl => exact ⟨hd, tl, rfl⟩
      have hpop : (bfsPol σ α).pop (hd :: tl) = some (hd, tl) := rfl
      by_cases hsol : p.isSolution hd.st = true
      · refine Or.inr (Or.inl ⟨hd, ?_, hsol,
          inv.path hd (List.mem_append_right _ (List.mem_cons_self _ _)), ?_⟩)
        · rw [solveAux_goal hsz htime hpop hsol]
        · intro j g hreach hgsol
          by_contra hcon
          push_neg at hcon
          have hg : p.hash g ∈ seen := inv.frontDisc hd rfl g j hreach hcon
          obtain ⟨es, hes, hesh⟩ := (inv.seenIff _).mp hg
          have hst : es.st = g := hinj hesh
          rcases List.mem_append.mp hes with htr | hq
          · have hng := inv.trNoGoal es htr
            rw [hst] at hng
            rw [hng] at hgsol
            cases hgsol
          · have hdep : es.hist.length ≤ j := by
              refine inv.depthMin es hes j ?_
              rw [hst]
              exact hreach
            have hmin : hd.hist.length ≤ es.hist.length := by
              rcases List.mem_cons.mp hq with rfl | hq2
              · exact le_refl _
              · exact (List.sorted_cons.mp inv.sorted).1 _
                  (List.mem_map_of_mem _ hq2)
            omega
      · have hsolF : p.isSolution hd.st = false := by
          rwa [Bool.not_eq_true] at hsol
        rw [solveAux_next hsz htime hpop hsol]
        exact ih (k + 1) _ _ (hd :: tr) (bfsInv_step hinj inv hsolF)

/-- Claim C6: on every finite state graph whose state identity (`hash`) is
faithful and in which some goal is reachable, `BreadthFirstSearch().solve`
with no timeout returns a goal state whose recorded action path is legal
and of minimal length: no reachable goal is strictly closer to the initial
state (all actions counting one step).  The fuel bound merely has to exceed
the number of distinct states, which the loop can never pop twice. -/
theorem claim_C6 {σ α : Type} [DecidableEq σ] [DecidableEq α] [Fintype σ]
    (p : SProb σ α) (times : Nat → ℤ) (start : ℤ) (fuel : Nat)
    (hinj : Function.Injective p.hash)
    (hfuel : Fintype.card σ < fuel)
    (hgoal : ∃ j g, ReachIn p j p.initialState g ∧ p.isSolution g = true) :
    ∃ es, (bfsSolve p none ⊤ times start fuel).out = .ret (some es) ∧
      p.isSolution es.st = true ∧ IsPath p p.initialState es.hist es.st ∧
      ∀ j g, ReachIn p j p.initialState g → p.isSolution g = true →
        es.hist.length ≤ j := by
  have hentry : pushIfNew p (bfsPol σ α) (bfsPol σ α).create []
      (⟨p.initialState, []⟩ : EState σ α) =
      ([⟨p.initialState, []⟩], [p.hash p.initialState]) := by
    unfold pushIfNew
    rw [if_neg (List.not_mem_nil _)]
    rfl
  have hsolveEq : bfsSolve p none ⊤ times start fuel =
      solveAux p (bfsPol σ α) ⊤ times start fuel 0 [⟨p.initialState, []⟩]
        [p.hash p.initialState] [] := by
    show solveAux p (bfsPol σ α) ⊤ times start fuel 0
      (pushIfNew p (bfsPol σ α) (bfsPol σ α).create [] ⟨p.initialState, []⟩).1
      (pushIfNew p (bfsPol σ α) (bfsPol σ α).create [] ⟨p.initialState, []⟩).2 [] =
      solveAux p (bfsPol σ α) ⊤ times start fuel 0 [⟨p.initialState, []⟩]
        [p.hash p.initialState] []
    rw [hentry]
  have inv0 : BfsInv p [⟨p.initialState, []⟩] [p.hash p.initialState] [] := by
    refine ⟨?_, ?_, List.sorted_singleton _, ?_, ?_, List.mem_cons_self _ _,
      ?_, ?_, ?_, ?_⟩
    · intro es hes
      rw [List.nil_append] at hes
      rcases List.mem_cons.mp hes with rfl | h
      · exact rfl
      · exact absurd h (List.not_mem_nil _)
    · intro es hes j hreach
      rw [List.nil_append] at hes
      rcases List.mem_cons.mp hes with rfl | h
      · exact Nat.zero_le j
      · exact absurd h (List.not_mem_nil _)
    · intro es hes hd hhd
      rcases List.mem_cons.mp hes with rfl | h
      · exact Nat.zero_le _
      · exact absurd h (List.not_mem_nil _)
    · intro h2
      constructor
      · intro hh
        rcases List.mem_cons.mp hh with rfl | h
        · exact ⟨⟨p.initialState, []⟩, List.mem_cons_self _ _, rfl⟩
        · exact absurd h (List.not_mem_nil _)
      · rintro ⟨es, hes, hesh⟩
        rw [List.nil_append] at hes
        rcases List.mem_cons.mp hes with rfl | h
        · rw [← hesh]
          exact List.mem_cons_self _ _
        · exact absurd h (List.not_mem_nil _)
    · intro es hes
      exact absurd hes (List.not_mem_nil _)
    · intro es hes
      exact absurd hes (List.not_mem_nil _)
    · intro hd hhd s j hreach hlt
      have hhd2 : hd = ⟨p.initialState, []⟩ := (Option.some.inj hhd).symm
      rw [hhd2] at hlt
      exact absurd hlt (Nat.not_lt_zero j)
    · intro hemp
      exact absurd hemp (List.cons_ne_nil _ _)
  rw [hsolveEq]
  rcases bfs_main hinj times start fuel 0 [⟨p.initialState, []⟩]
      [p.hash p.initialState] [] inv0 with
    hfo | ⟨es, hout, hsol2, hpath, hmin⟩ | ⟨hnone, hnog⟩
  · exfalso
    have hlen := solveAux_fuelOut_length fuel 0 _ _ [] hfo
    rw [List.length_nil, Nat.zero_add] at hlen
    have hnd : ((solveAux p (bfsPol σ α) ⊤ times start fuel 0
        [⟨p.initialState, []⟩] [p.hash p.initialState] []).trace.map
        fun es => p.hash es.st).Nodup := by
      rw [← hsolveEq]
      exact genericSolve_nodup (bfsOK p) none ⊤ times start fuel
    have hnd2 : ((solveAux p (bfsPol σ α) ⊤ times start fuel 0
        [⟨p.initialState, []⟩] [p.hash p.initialState] []).trace.map
        fun es => es.st).Nodup := by
      refine List.Nodup.of_map p.hash ?_
      rw [List.map_map]
      exact hnd
    have hcard := List.Nodup.length_le_card hnd2
    rw [List.length_map, hlen] at hcard
    omega
  · exact ⟨es, hout, hsol2, hpath, hmin⟩
  · exfalso
    obtain ⟨j, g, hreach, hg⟩ := hgoal
    rw [hnog j g hreach] at hg
    cases hg

/-- Witness for C6: on the spec's three-node chain `0 → 1 → 2` with goal
`2`, breadth-first solve returns a goal state, and its path length is at
most 2, the true distance. -/
theorem claim_C6_witness :
    ∃ es, (bfsSolve g3Prob none ⊤ (fun _ => 0) 0 4).out = .ret (some es) ∧
      g3Prob.isSolution es.st = true ∧ es.hist.length ≤ 2 := by
  obtain ⟨es, hout, hsol, hpath, hmin⟩ := claim_C6 g3Prob (fun _ => 0) 0 4
    (by decide) (by decide) ⟨2, 2, by decide, by decide⟩
  exact ⟨es, hout, hsol, hmin 2 2 (by decide) (by decide)⟩

end ForisSearch
